import Mathlib

/-!
Shallow embedding of the DirSynchronizer repository
(src/DirSynchronizer/main.cpp and src/DirSynchronizer/Logger.h).

Modelling conventions:
* Filesystem paths are lists of components (`List String`); the C++ code
  manipulates `fs::path` values whose `generic_string` joins components
  with `/`.  `get_filename` (main.cpp:204-208) takes the substring after
  the last `/`, i.e. the last component.
* A filesystem tree is an association list from paths to nodes.  A node
  is a directory, a regular file with a last-write time and contents, or
  an object of any other type (socket, fifo, symlink, ...), matching the
  three-way classification `is_regular_file` / `is_directory` / other
  used in `run_internal` (main.cpp:150-172).
* `std::set<fs::directory_entry>` orders and compares entries by path
  only, so `source_content` / `replica_content` are modelled as lists of
  `Entry` records keyed by path; the sorted iteration order of the set is
  abstracted as list order (the spec states ordering carries no semantic
  meaning).  A `directory_entry` stored in the set keeps the attributes
  (type, last write time) observed when it was inserted, which is the
  "recorded" data the snapshot carries.
* Last-write times are naturals; file contents are strings compared for
  equality ("byte-identical").
* Fallible filesystem operations (`fs::copy_file`, `fs::copy`,
  `fs::remove`, `fs::remove_all`) throw `fs::filesystem_error` in the
  overloads used by `report_action`; they are modelled in `Except`.
  There is no try/catch anywhere in `run_internal` or around the worker
  thread, so an error short-circuits the whole cycle.
-/

/-- Action classification, `enum class action_t` of `DirWatcherCallbackBase` (main.cpp:24). -/
inductive ActionT
  | create
  | modify
  | delete
  | unexpectedAction
deriving DecidableEq, Repr

/-- File-type classification, `enum class file_t` of `DirWatcherCallbackBase` (main.cpp:25). -/
inductive FileT
  | directory
  | regular
  | unexpectedFile
deriving DecidableEq, Repr

/-- A snapshot record: one `fs::directory_entry` as stored in
`source_content` / `replica_content` (main.cpp:71-72), keeping the path
together with the file type and last-write time observed when the entry
was inserted. -/
structure Entry where
  path : List String
  kind : FileT
  mtime : Nat
deriving DecidableEq, Repr

/-- One filesystem object as it exists on disk at poll time. -/
inductive FsNode
  | dir (mtime : Nat)
  | file (mtime : Nat) (content : String)
  | other (mtime : Nat)
deriving DecidableEq, Repr

/-- The file-type classification of an on-disk node, as computed by
`entry.is_regular_file()` / `entry.is_directory()` in `run_internal`. -/
def FsNode.kind : FsNode → FileT
  | .dir _ => .directory
  | .file _ _ => .regular
  | .other _ => .unexpectedFile

/-- The last-write time of an on-disk node (`entry.last_write_time()`). -/
def FsNode.mtime : FsNode → Nat
  | .dir m => m
  | .file m _ => m
  | .other m => m

/-- A filesystem tree: association list from paths to nodes. -/
abbrev Disk := List (List String × FsNode)

/-- First-match lookup in an association list keyed by paths (models a
stat of the path: `fs::exists`, reading a file, ...). -/
def lookupKey {α : Type} (k : List String) : List (List String × α) → Option α
  | [] => none
  | kv :: rest => if kv.1 = k then some kv.2 else lookupKey k rest

/-- First entry with the given path, modelling `std::set<fs::directory_entry>::find`
which compares entries by path (main.cpp:145). -/
def findEntry (p : List String) : List Entry → Option Entry
  | [] => none
  | e :: rest => if e.path = p then some e else findEntry p rest

/-- Paths of a list of entries. -/
def pathsOfE (l : List Entry) : List (List String) :=
  l.map Entry.path

/-- The state owned by the `DirWatcher`: the source snapshot and the
replica shadow set (main.cpp:71-72). -/
structure WatchState where
  source_content : List Entry
  replica_content : List Entry
deriving DecidableEq, Repr

/-- One change event handed to `report_action`: the action, the file
type, and the source path (the replica root is a fixed fourth argument
threaded separately). -/
structure Event where
  action : ActionT
  file : FileT
  path : List String
deriving DecidableEq, Repr

/-- Events emitted for a walked object that is absent from the snapshot
(main.cpp:150-159): a create tagged with the object's actual type, and
nothing at all for an object that is neither a regular file nor a
directory. -/
def classifyNew (node : FsNode) (p : List String) : List Event :=
  match node.kind with
  | .regular => [⟨.create, .regular, p⟩]
  | .directory => [⟨.create, .directory, p⟩]
  | .unexpectedFile => []

/-- Events emitted for a walked object whose on-disk last-write time is
strictly newer than the recorded one (main.cpp:161-173). -/
def classifyModified (node : FsNode) (p : List String) : List Event :=
  match node.kind with
  | .regular => [⟨.modify, .regular, p⟩]
  | .directory => [⟨.modify, .directory, p⟩]
  | .unexpectedFile => []

/-- The walk loop of `run_internal` (main.cpp:143-174): for each entry
yielded by `fs::recursive_directory_iterator` in order, look it up in
`source_content`; if absent, insert it (with its observed type and
last-write time) into both `source_content` and `replica_content` and
emit a create when its type is known; if present and strictly newer on
disk, emit a modify.  Nothing in the present branch updates the stored
entry. -/
def walkPhase : List (List String × FsNode) → WatchState → WatchState × List Event
  | [], st => (st, [])
  | kv :: rest, st =>
    match findEntry kv.1 st.source_content with
    | none =>
      let e : Entry := ⟨kv.1, kv.2.kind, kv.2.mtime⟩
      let r := walkPhase rest ⟨st.source_content ++ [e], st.replica_content ++ [e]⟩
      (r.1, classifyNew kv.2 kv.1 ++ r.2)
    | some old =>
      let r := walkPhase rest st
      (r.1, (if old.mtime < kv.2.mtime then classifyModified kv.2 kv.1 else []) ++ r.2)

/-- Delete event for a snapshot entry, tagged with the entry's recorded
type (main.cpp:180-189); an entry of unexpected type yields no event. -/
def deleteEvent (e : Entry) : List Event :=
  match e.kind with
  | .regular => [⟨.delete, .regular, e.path⟩]
  | .directory => [⟨.delete, .directory, e.path⟩]
  | .unexpectedFile => []

/-- Condition of the delete loop (main.cpp:178): the entry is in the
replica shadow set (`std::set::contains`, path comparison) and no longer
exists on disk (`fs::exists`). -/
def isGone (disk : Disk) (st : WatchState) (e : Entry) : Bool :=
  (findEntry e.path st.replica_content).isSome && (lookupKey e.path disk).isNone

/-- The delete loop of `run_internal` (main.cpp:176-197): every snapshot
entry that is in the shadow set and gone from disk produces a delete
event (when its recorded type is known) and is pushed to `garbage`;
afterwards all garbage entries are erased from `source_content` only. -/
def deletePhase (disk : Disk) (st : WatchState) : WatchState × List Event :=
  (⟨st.source_content.filter (fun e => !(isGone disk st e)), st.replica_content⟩,
   (st.source_content.filter (fun e => isGone disk st e)).flatMap deleteEvent)

/-- One full poll cycle of `run_internal` (main.cpp:143-197): the walk
phase over the entries yielded by the directory iterator, followed by
the delete phase against the current disk. -/
def runCycle (walk : Disk) (disk : Disk) (st : WatchState) : WatchState × List Event :=
  let r1 := walkPhase walk st
  let r2 := deletePhase disk r1.1
  (r2.1, r1.2 ++ r2.2)

/-- `DirWatcherCallback::get_filename` (main.cpp:204-208): the substring
of the path's generic string after the last `/`, i.e. its last
component. -/
def get_filename (p : List String) : String :=
  (p.getLast?).getD ""

/-- The replica path every branch of `report_action` operates on:
`directory_path + "/" + get_filename(path)` (main.cpp:217-234). -/
def replicaTarget (root : List String) (p : List String) : List String :=
  root ++ [get_filename p]

/-- A node of the replica tree; only structure and file contents are
tracked (the claims compare directory structure and file bytes). -/
inductive RNode
  | dir
  | file (content : String)
deriving DecidableEq, Repr

/-- The replica tree: association list from paths to replica nodes. -/
abbrev Replica := List (List String × RNode)

/-- Write (create or overwrite in place) the value at a key. -/
def setKey (k : List String) (v : RNode) : Replica → Replica
  | [] => [(k, v)]
  | kv :: rest => if kv.1 = k then (k, v) :: rest else kv :: setKey k v rest

/-- Remove the object stored exactly at a key. -/
def eraseKey (k : List String) (rep : Replica) : Replica :=
  rep.filter (fun kv => decide (kv.1 ≠ k))

/-- `isUnder k q` holds when `k` is a (not necessarily strict) component
prefix of `q`, i.e. `q` lies in the subtree rooted at `k`. -/
def isUnder : List String → List String → Bool
  | [], _ => true
  | _ :: _, [] => false
  | a :: as, b :: bs => decide (a = b) && isUnder as bs

/-- Whether some other key lies strictly below `k`. -/
def hasChild (k : List String) (rep : Replica) : Bool :=
  rep.any (fun kv => decide (kv.1 ≠ k) && isUnder k kv.1)

/-- Errors of the modelled filesystem calls (`fs::filesystem_error`). -/
inductive FsErr
  | copyFail
  | removeFail
deriving DecidableEq, Repr

/-- `fs::copy_file(src, tgt, overwrite_existing)` (main.cpp:217): reads
the regular file at `src` on the source disk and writes its contents at
`tgt`; throws if `src` is missing or not a regular file. -/
def copy_file (disk : Disk) (src tgt : List String) (rep : Replica) : Except FsErr Replica :=
  match lookupKey src disk with
  | some (.file _ c) => .ok (setKey tgt (.file c) rep)
  | _ => .error .copyFail

/-- The replica node a source node copies to, or `none` when the node is
of a type `fs::copy` refuses to copy. -/
def toRNode : FsNode → Option RNode
  | .dir _ => some .dir
  | .file _ c => some (.file c)
  | .other _ => none

/-- All disk entries in the subtree rooted at `src` (including `src`
itself). -/
def subtreeEntries (disk : Disk) (src : List String) : List (List String × FsNode) :=
  disk.filter (fun kv => isUnder src kv.1)

/-- The writes performed by a recursive `fs::copy` of the subtree at
`src` onto `tgt`: each source path is re-rooted at `tgt`; `none` when
the subtree holds an uncopyable node type. -/
def writesFor (tgt src : List String) : List (List String × FsNode) → Option (List (List String × RNode))
  | [] => some []
  | qn :: rest =>
    match toRNode qn.2, writesFor tgt src rest with
    | some r, some ws => some ((tgt ++ qn.1.drop src.length, r) :: ws)
    | _, _ => none

/-- Apply a list of writes in order. -/
def writeAll (ws : List (List String × RNode)) (rep : Replica) : Replica :=
  ws.foldl (fun r kv => setKey kv.1 kv.2 r) rep

/-- `fs::copy(src, tgt, overwrite_existing | recursive)` (main.cpp:228):
copies a regular file, or recursively copies a directory subtree,
overwriting existing destination entries; throws when `src` is missing
or the subtree holds an uncopyable node. -/
def copyTree (disk : Disk) (src tgt : List String) (rep : Replica) : Except FsErr Replica :=
  match lookupKey src disk with
  | some (.file _ c) => .ok (setKey tgt (.file c) rep)
  | some (.dir _) =>
    match writesFor tgt src (subtreeEntries disk src) with
    | some ws => .ok (writeAll ws rep)
    | none => .error .copyFail
  | _ => .error .copyFail

/-- `fs::remove(tgt)` (main.cpp:222): removes a file or empty directory;
removing nothing is not an error; removing a non-empty directory is. -/
def removeOne (tgt : List String) (rep : Replica) : Except FsErr Replica :=
  match lookupKey tgt rep with
  | some .dir => if hasChild tgt rep then .error .removeFail else .ok (eraseKey tgt rep)
  | _ => .ok (eraseKey tgt rep)

/-- `fs::remove_all(tgt)` (main.cpp:234): removes the whole subtree at
`tgt`. -/
def removeAll (tgt : List String) (rep : Replica) : Replica :=
  rep.filter (fun kv => !(isUnder tgt kv.1))

/-- `DirWatcherCallback::report_action` (main.cpp:210-237): dispatch on
(action, file type); every branch resolves its replica path as the
replica root joined with the bare filename of the source path; the
fall-through for unexpected combinations performs no filesystem
mutation. -/
def report_action (disk : Disk) (root : List String) (ev : Event) (rep : Replica) : Except FsErr Replica :=
  if (ev.action = .create ∨ ev.action = .modify) ∧ ev.file = .regular then
    copy_file disk ev.path (replicaTarget root ev.path) rep
  else if ev.action = .delete ∧ ev.file = .regular then
    removeOne (replicaTarget root ev.path) rep
  else if (ev.action = .create ∨ ev.action = .modify) ∧ ev.file = .directory then
    copyTree disk ev.path (replicaTarget root ev.path) rep
  else if ev.action = .delete ∧ ev.file = .directory then
    .ok (removeAll (replicaTarget root ev.path) rep)
  else
    .ok rep

/-- Apply the events of a cycle in order.  `run_internal` has no
try/catch, so the first filesystem error propagates out of the worker
thread and no later event is applied. -/
def applyAll (disk : Disk) (root : List String) : List Event → Replica → Except FsErr Replica
  | [], rep => .ok rep
  | ev :: rest, rep =>
    match report_action disk root ev rep with
    | .ok rep2 => applyAll disk root rest rep2
    | .error e => .error e

/-- The loop skeleton of `run_internal` (main.cpp:140-142):
`while (!stop_flag) { sleep_for(interval); cycle; }`.  Time is discrete;
`flag t` is the value of `stop_flag` read at time `t`; a cycle's own
duration is abstracted to zero (which only shortens the delay the claim
is about); the sleep is `std::this_thread::sleep_for`, which always runs
to completion.  `workerExit flag interval fuel t` is the time at which
the worker exits the loop, given enough fuel. -/
def workerExit (flag : Nat → Bool) (interval : Nat) : Nat → Nat → Option Nat
  | 0, t => if flag t then some t else none
  | fuel + 1, t => if flag t then some t else workerExit flag interval fuel (t + interval)

/-- Outcome of process startup (`main`, main.cpp:260-271). -/
inductive MainOutcome
  | crash
  | usageFailure
  | runsWatcher
deriving DecidableEq, Repr

/-- The `Logger` constructor (Logger.h:30-41): `outf` is a fresh stream
when `filename` is non-null and the null pointer otherwise, and the
constructor then unconditionally calls `outf->open(filename)`, which
dereferences the null pointer when `filename` was null. -/
def loggerInit (filename : Option String) : Except Unit Unit :=
  match filename with
  | some _ => .ok ()
  | none => .error ()

/-- The value read from `argv[4]`: `some (some s)` for a real argument,
`some none` for the null terminator `argv[argc]` (guaranteed by the C
standard when `argc = 4`), and `none` (undefined behaviour) past the end
of the argument array. -/
def argvFour (argv : List String) : Option (Option String) :=
  if 4 < argv.length then some (argv.get? 4)
  else if argv.length = 4 then some none
  else none

/-- `main` (main.cpp:260-271): constructs the `Logger` from `argv[4]`
first, and only then checks `5 != argc`, printing the usage message and
exiting with `EXIT_FAILURE` on a mismatch; with exactly five arguments
the watcher is constructed and run. -/
def mainModel (argv : List String) : MainOutcome :=
  match argvFour argv with
  | none => .crash
  | some fn =>
    match loggerInit fn with
    | .error _ => .crash
    | .ok _ => if argv.length ≠ 5 then .usageFailure else .runsWatcher

/-! Basic lemmas about the association-list operations. -/

theorem lookupKey_eq_none_iff {α : Type} (k : List String) (l : List (List String × α)) :
    lookupKey k l = none ↔ k ∉ l.map Prod.fst := by
  induction l with
  | nil => simp [lookupKey]
  | cons kv rest ih =>
    by_cases h : kv.1 = k
    · simp only [lookupKey, if_pos h]
      constructor
      · intro h1
        exact absurd h1 (by simp)
      · intro h1
        exact absurd (List.mem_map.mpr ⟨kv, List.mem_cons_self _ _, h⟩) h1
    · rw [List.map_cons, List.mem_cons]
      simp only [lookupKey, if_neg h, ih]
      constructor
      · intro h1 h2
        rcases h2 with h2 | h2
        · exact h (h2.symm)
        · exact h1 h2
      · intro h1 h2
        exact h1 (Or.inr h2)

theorem lookupKey_isSome_of_mem {α : Type} {k : List String} {v : α}
    {l : List (List String × α)} (h : (k, v) ∈ l) : (lookupKey k l).isSome := by
  induction l with
  | nil => simp at h
  | cons kv rest ih =>
    rcases List.mem_cons.mp h with h1 | h1
    · simp [lookupKey, ← h1]
    · by_cases h2 : kv.1 = k
      · simp [lookupKey, h2]
      · simp [lookupKey, h2, ih h1]

theorem lookupKey_mem {α : Type} {k : List String} {v : α}
    {l : List (List String × α)} (h : lookupKey k l = some v) : (k, v) ∈ l := by
  induction l with
  | nil => simp [lookupKey] at h
  | cons kv rest ih =>
    cases kv with
    | mk k0 v0 =>
      by_cases h2 : k0 = k
      · subst h2
        simp [lookupKey] at h
        subst h
        exact List.mem_cons_self _ _
      · simp [lookupKey, h2] at h
        exact List.mem_cons_of_mem _ (ih h)

theorem lookupKey_eq_of_mem_nodup {α : Type} {k : List String} {v : α}
    {l : List (List String × α)} (hn : (l.map Prod.fst).Nodup) (h : (k, v) ∈ l) :
    lookupKey k l = some v := by
  induction l with
  | nil => simp at h
  | cons kv rest ih =>
    simp only [List.map_cons, List.nodup_cons] at hn
    rcases List.mem_cons.mp h with h1 | h1
    · simp [lookupKey, ← h1]
    · have hne : kv.1 ≠ k := by
        intro he
        exact hn.1 (he ▸ (List.mem_map.mpr ⟨(k, v), h1, rfl⟩))
      simp [lookupKey, hne, ih hn.2 h1]

theorem findEntry_eq_none_iff (p : List String) (l : List Entry) :
    findEntry p l = none ↔ p ∉ pathsOfE l := by
  induction l with
  | nil => simp [findEntry, pathsOfE]
  | cons e rest ih =>
    by_cases h : e.path = p
    · simp [findEntry, h, pathsOfE]
    · simp [findEntry, h, pathsOfE, Ne.symm h] at ih ⊢
      exact ih

theorem findEntry_append (p : List String) (l l2 : List Entry) :
    findEntry p (l ++ l2) =
      (match findEntry p l with
       | some e => some e
       | none => findEntry p l2) := by
  induction l with
  | nil => simp [findEntry]
  | cons e rest ih =>
    by_cases h : e.path = p
    · simp [findEntry, h]
    · simp [findEntry, h, ih]

theorem findEntry_append_of_isSome {p : List String} {l : List Entry} (l2 : List Entry)
    (h : (findEntry p l).isSome) : findEntry p (l ++ l2) = findEntry p l := by
  rw [findEntry_append]
  cases hfe : findEntry p l
  · rw [hfe] at h
    simp at h
  · rfl

theorem findEntry_mem {p : List String} {l : List Entry} {e : Entry}
    (h : findEntry p l = some e) : e ∈ l ∧ e.path = p := by
  induction l with
  | nil => simp [findEntry] at h
  | cons e2 rest ih =>
    by_cases h2 : e2.path = p
    · simp [findEntry, h2] at h
      subst h
      exact ⟨List.mem_cons_self _ _, h2⟩
    · simp [findEntry, h2] at h
      exact ⟨List.mem_cons_of_mem _ (ih h).1, (ih h).2⟩

theorem findEntry_isSome_of_mem {p : List String} {l : List Entry} {e : Entry}
    (he : e ∈ l) (hp : e.path = p) : (findEntry p l).isSome := by
  induction l with
  | nil => simp at he
  | cons e2 rest ih =>
    by_cases h2 : e2.path = p
    · simp [findEntry, h2]
    · rcases List.mem_cons.mp he with h1 | h1
      · exact absurd (h1 ▸ hp) h2
      · simp [findEntry, h2, ih h1]

theorem findEntry_filter (p : List String) (l : List Entry) (pred : Entry → Bool)
    (hp : ∀ x : Entry, x.path = p → pred x = true) :
    findEntry p (l.filter pred) = findEntry p l := by
  induction l with
  | nil => simp
  | cons e rest ih =>
    by_cases h : e.path = p
    · rw [List.filter_cons, hp e h]
      simp [findEntry, h]
    · rw [List.filter_cons]
      cases hpe : pred e
      · simpa [findEntry, h] using ih
      · simp [findEntry, h, ih]

/-! Lemmas about the modelled replica operations. -/

theorem lookup_setKey_self (k : List String) (v : RNode) (r : Replica) :
    lookupKey k (setKey k v r) = some v := by
  induction r with
  | nil => simp [setKey, lookupKey]
  | cons kv rest ih =>
    by_cases h : kv.1 = k
    · simp [setKey, h, lookupKey]
    · simp [setKey, h, lookupKey, ih]


theorem lookupKey_cons {α : Type} (k : List String) (kv : List String × α)
    (l : List (List String × α)) :
    lookupKey k (kv :: l) = if kv.1 = k then some kv.2 else lookupKey k l := rfl

theorem setKey_cons (k : List String) (v : RNode) (kv : List String × RNode) (r : Replica) :
    setKey k v (kv :: r) = if kv.1 = k then (k, v) :: r else kv :: setKey k v r := rfl

theorem lookup_setKey_ne {k k2 : List String} (v : RNode) (r : Replica) (h : k2 ≠ k) :
    lookupKey k2 (setKey k v r) = lookupKey k2 r := by
  induction r with
  | nil =>
    simp [setKey, lookupKey, Ne.symm h]
  | cons kv rest ih =>
    rw [setKey_cons]
    by_cases h2 : kv.1 = k
    · rw [if_pos h2, lookupKey_cons, lookupKey_cons]
      rw [if_neg (Ne.symm h), if_neg (fun hx : kv.1 = k2 => h ((h2.symm.trans hx).symm))]
    · rw [if_neg h2, lookupKey_cons, lookupKey_cons]
      by_cases h3 : kv.1 = k2
      · rw [if_pos h3, if_pos h3]
      · rw [if_neg h3, if_neg h3, ih]

theorem eraseKey_cons (k : List String) (kv : List String × RNode) (r : Replica) :
    eraseKey k (kv :: r) = if kv.1 = k then eraseKey k r else kv :: eraseKey k r := by
  simp only [eraseKey, List.filter_cons]
  by_cases h : kv.1 = k
  · simp [h]
  · simp [h]

theorem lookup_eraseKey_self (k : List String) (r : Replica) :
    lookupKey k (eraseKey k r) = none := by
  induction r with
  | nil => simp [eraseKey, lookupKey]
  | cons kv rest ih =>
    rw [eraseKey_cons]
    by_cases h : kv.1 = k
    · rw [if_pos h]
      exact ih
    · rw [if_neg h, lookupKey_cons, if_neg h]
      exact ih

theorem lookup_eraseKey_ne {k k2 : List String} (r : Replica) (h : k2 ≠ k) :
    lookupKey k2 (eraseKey k r) = lookupKey k2 r := by
  induction r with
  | nil => simp [eraseKey, lookupKey]
  | cons kv rest ih =>
    rw [eraseKey_cons]
    by_cases h2 : kv.1 = k
    · rw [if_pos h2, lookupKey_cons, if_neg (fun hx : kv.1 = k2 => h ((h2.symm.trans hx).symm))]
      exact ih
    · rw [if_neg h2, lookupKey_cons, lookupKey_cons]
      by_cases h3 : kv.1 = k2
      · rw [if_pos h3, if_pos h3]
      · rw [if_neg h3, if_neg h3, ih]

theorem setKey_idem (k : List String) (v : RNode) (r : Replica) :
    setKey k v (setKey k v r) = setKey k v r := by
  induction r with
  | nil => simp [setKey]
  | cons kv rest ih =>
    rw [setKey_cons]
    by_cases h : kv.1 = k
    · rw [if_pos h, setKey_cons, if_pos rfl]
    · rw [if_neg h, setKey_cons, if_neg h, ih]

theorem setKey_of_lookup {k : List String} {v : RNode} {r : Replica}
    (h : lookupKey k r = some v) : setKey k v r = r := by
  induction r with
  | nil => simp [lookupKey] at h
  | cons kv rest ih =>
    rw [setKey_cons]
    by_cases h2 : kv.1 = k
    · rw [if_pos h2]
      rw [lookupKey_cons, if_pos h2] at h
      cases kv with
      | mk k0 v0 =>
        simp only at h2
        simp only at h
        rw [h2, (Option.some_inj.mp h)]
    · rw [if_neg h2]
      rw [lookupKey_cons, if_neg h2] at h
      rw [ih h]

theorem mem_setKey {kv : List String × RNode} {k : List String} {v : RNode} {r : Replica}
    (h : kv ∈ setKey k v r) : kv = (k, v) ∨ kv ∈ r := by
  induction r with
  | nil => simpa [setKey] using h
  | cons kv2 rest ih =>
    rw [setKey_cons] at h
    by_cases h2 : kv2.1 = k
    · rw [if_pos h2] at h
      rcases List.mem_cons.mp h with h | h
      · exact Or.inl h
      · exact Or.inr (List.mem_cons_of_mem _ h)
    · rw [if_neg h2] at h
      rcases List.mem_cons.mp h with h | h
      · exact Or.inr (h ▸ List.mem_cons_self _ _)
      · rcases ih h with h3 | h3
        · exact Or.inl h3
        · exact Or.inr (List.mem_cons_of_mem _ h3)

theorem mem_eraseKey {kv : List String × RNode} {k : List String} {r : Replica}
    (h : kv ∈ eraseKey k r) : kv ∈ r :=
  List.mem_of_mem_filter h

theorem writeAll_cons (w : List String × RNode) (ws : List (List String × RNode)) (r : Replica) :
    writeAll (w :: ws) r = writeAll ws (setKey w.1 w.2 r) := rfl

theorem mem_writeAll {kv : List String × RNode} {ws : List (List String × RNode)} {r : Replica}
    (h : kv ∈ writeAll ws r) : kv ∈ ws ∨ kv ∈ r := by
  induction ws generalizing r with
  | nil => exact Or.inr h
  | cons w rest ih =>
    rw [writeAll_cons] at h
    rcases ih h with h2 | h2
    · exact Or.inl (List.mem_cons_of_mem _ h2)
    · rcases mem_setKey h2 with h3 | h3
      · exact Or.inl (h3 ▸ List.mem_cons_self _ _)
      · exact Or.inr h3

theorem lookup_writeAll_not_mem {k : List String} {ws : List (List String × RNode)}
    (r : Replica) (h : k ∉ ws.map Prod.fst) :
    lookupKey k (writeAll ws r) = lookupKey k r := by
  induction ws generalizing r with
  | nil => rfl
  | cons w rest ih =>
    simp only [List.map_cons, List.mem_cons] at h
    push_neg at h
    rw [writeAll_cons, ih _ h.2, lookup_setKey_ne _ _ h.1]

theorem lookup_writeAll_mem {ws : List (List String × RNode)} {k : List String} {v : RNode}
    (r : Replica) (hn : (ws.map Prod.fst).Nodup) (h : (k, v) ∈ ws) :
    lookupKey k (writeAll ws r) = some v := by
  induction ws generalizing r with
  | nil => simp at h
  | cons w rest ih =>
    simp only [List.map_cons, List.nodup_cons] at hn
    rw [writeAll_cons]
    rcases List.mem_cons.mp h with h2 | h2
    · have hk : k ∉ rest.map Prod.fst := by
        intro hx
        exact hn.1 (by rw [← h2]; exact hx)
      rw [lookup_writeAll_not_mem _ hk, ← h2, lookup_setKey_self]
    · exact ih _ hn.2 h2

theorem writeAll_of_lookup {ws : List (List String × RNode)} {W : Replica}
    (h : ∀ kv ∈ ws, lookupKey kv.1 W = some kv.2) : writeAll ws W = W := by
  induction ws with
  | nil => rfl
  | cons w rest ih =>
    rw [writeAll_cons, setKey_of_lookup (h w (List.mem_cons_self _ _))]
    exact ih (fun kv hkv => h kv (List.mem_cons_of_mem _ hkv))

theorem writeAll_idem {ws : List (List String × RNode)} (r : Replica)
    (h : (ws.map Prod.fst).Nodup) : writeAll ws (writeAll ws r) = writeAll ws r :=
  writeAll_of_lookup (fun kv hkv => lookup_writeAll_mem r h (by cases kv; exact hkv))

/-! Characterization of the walk phase.  Against a baseline lookup `B`
describing the snapshot as the walk starts (legitimate as long as walked
paths are distinct, since an insertion for one path never changes what
`find` returns for another), the walk phase appends exactly the fresh
entries to both sets and emits exactly the per-entry create/modify
events, in walk order. -/

/-- The snapshot entry recorded for a freshly walked object. -/
def freshEntry (kv : List String × FsNode) : Entry :=
  ⟨kv.1, kv.2.kind, kv.2.mtime⟩

/-- Events one walked object contributes, given the baseline snapshot. -/
def stepEvents (B : List String → Option Entry) (kv : List String × FsNode) : List Event :=
  match B kv.1 with
  | none => classifyNew kv.2 kv.1
  | some old => if old.mtime < kv.2.mtime then classifyModified kv.2 kv.1 else []

/-- Entries the walk phase appends to both sets, given the baseline. -/
def newEntries (B : List String → Option Entry) (walk : Disk) : List Entry :=
  walk.filterMap (fun kv =>
    match B kv.1 with
    | none => some (freshEntry kv)
    | some _ => none)

/-- All events of the walk phase, given the baseline. -/
def walkEvents (B : List String → Option Entry) (walk : Disk) : List Event :=
  walk.flatMap (stepEvents B)

theorem findEntry_append_singleton (p : List String) (l : List Entry) (e : Entry)
    (h : e.path ≠ p) : findEntry p (l ++ [e]) = findEntry p l := by
  rw [findEntry_append]
  cases hf : findEntry p l
  · simp [findEntry, h]
  · rfl

theorem walkPhase_spec (walk : Disk) (st : WatchState) (B : List String → Option Entry)
    (hB : ∀ kv ∈ walk, findEntry kv.1 st.source_content = B kv.1)
    (hn : (walk.map Prod.fst).Nodup) :
    walkPhase walk st =
      (⟨st.source_content ++ newEntries B walk, st.replica_content ++ newEntries B walk⟩,
       walkEvents B walk) := by
  induction walk generalizing st with
  | nil =>
    simp [walkPhase, newEntries, walkEvents]
  | cons kv rest ih =>
    have hhead := hB kv (List.mem_cons_self _ _)
    simp only [List.map_cons, List.nodup_cons] at hn
    cases hB2 : B kv.1 with
    | none =>
      have hfind : findEntry kv.1 st.source_content = none := by rw [hhead, hB2]
      have hB2' : ∀ kv2 ∈ rest,
          findEntry kv2.1 (st.source_content ++ [freshEntry kv]) = B kv2.1 := by
        intro kv2 hkv2
        have hne : kv2.1 ≠ kv.1 := by
          intro hx
          exact hn.1 (hx ▸ List.mem_map.mpr ⟨kv2, hkv2, rfl⟩)
        rw [findEntry_append_singleton _ _ _ (show (freshEntry kv).path ≠ kv2.1 from Ne.symm hne)]
        exact hB kv2 (List.mem_cons_of_mem _ hkv2)
      have hrec := ih ⟨st.source_content ++ [freshEntry kv],
        st.replica_content ++ [freshEntry kv]⟩ hB2' hn.2
      simp only [walkPhase, hfind]
      simp only [freshEntry] at hrec
      rw [hrec]
      simp [newEntries, List.filterMap_cons, hB2, freshEntry, walkEvents,
        List.flatMap_cons, stepEvents, List.append_assoc, Prod.ext_iff]
    | some old =>
      have hfind : findEntry kv.1 st.source_content = some old := by rw [hhead, hB2]
      have hB2' : ∀ kv2 ∈ rest, findEntry kv2.1 st.source_content = B kv2.1 :=
        fun kv2 hkv2 => hB kv2 (List.mem_cons_of_mem _ hkv2)
      have hrec := ih st hB2' hn.2
      simp only [walkPhase, hfind]
      rw [hrec]
      simp [newEntries, List.filterMap_cons, hB2, walkEvents,
        List.flatMap_cons, stepEvents, Prod.ext_iff]

/-! Consequences of the characterization, and lemmas about the delete
phase and the reconciler. -/

theorem paths_newEntries_sublist (B : List String → Option Entry) (walk : Disk) :
    (pathsOfE (newEntries B walk)).Sublist (walk.map Prod.fst) := by
  induction walk with
  | nil => simp [newEntries, pathsOfE]
  | cons kv rest ih =>
    cases hb : B kv.1 with
    | none =>
      simp only [newEntries, List.filterMap_cons, hb, pathsOfE, List.map_cons,
        freshEntry] at ih ⊢
      exact List.Sublist.cons₂ _ ih
    | some old =>
      simp only [newEntries, List.filterMap_cons, hb, pathsOfE, List.map_cons] at ih ⊢
      exact List.Sublist.cons _ ih

theorem mem_newEntries {B : List String → Option Entry} {walk : Disk} {e : Entry}
    (h : e ∈ newEntries B walk) :
    ∃ kv ∈ walk, e = freshEntry kv ∧ B kv.1 = none := by
  simp only [newEntries, List.mem_filterMap] at h
  rcases h with ⟨kv, hkv, hmk⟩
  cases hb : B kv.1 with
  | none =>
    rw [hb] at hmk
    exact ⟨kv, hkv, (Option.some_inj.mp hmk).symm, hb⟩
  | some old =>
    rw [hb] at hmk
    simp at hmk

theorem newEntries_mem_of {B : List String → Option Entry} {walk : Disk}
    {kv : List String × FsNode} (hkv : kv ∈ walk) (hB : B kv.1 = none) :
    freshEntry kv ∈ newEntries B walk := by
  simp only [newEntries, List.mem_filterMap]
  exact ⟨kv, hkv, by rw [hB]⟩

theorem mem_stepEvents {B : List String → Option Entry} {kv : List String × FsNode}
    {ev : Event} (h : ev ∈ stepEvents B kv) :
    ev.path = kv.1 ∧ ev.file = kv.2.kind ∧ kv.2.kind ≠ .unexpectedFile ∧
      (ev.action = .create ∨ ev.action = .modify) := by
  obtain ⟨p, node⟩ := kv
  cases hb : B p with
  | none =>
    simp only [stepEvents, hb] at h
    cases node with
    | dir m =>
      simp only [classifyNew, FsNode.kind, List.mem_singleton] at h
      subst h
      exact ⟨rfl, rfl, by simp [FsNode.kind], Or.inl rfl⟩
    | file m c =>
      simp only [classifyNew, FsNode.kind, List.mem_singleton] at h
      subst h
      exact ⟨rfl, rfl, by simp [FsNode.kind], Or.inl rfl⟩
    | other m =>
      simp only [classifyNew, FsNode.kind, List.not_mem_nil] at h
  | some old =>
    simp only [stepEvents, hb] at h
    by_cases hlt : old.mtime < node.mtime
    · rw [if_pos hlt] at h
      cases node with
      | dir m =>
        simp only [classifyModified, FsNode.kind, List.mem_singleton] at h
        subst h
        exact ⟨rfl, rfl, by simp [FsNode.kind], Or.inr rfl⟩
      | file m c =>
        simp only [classifyModified, FsNode.kind, List.mem_singleton] at h
        subst h
        exact ⟨rfl, rfl, by simp [FsNode.kind], Or.inr rfl⟩
      | other m =>
        simp only [classifyModified, FsNode.kind, List.not_mem_nil] at h
    · rw [if_neg hlt] at h
      simp at h

theorem mem_walkEvents {B : List String → Option Entry} {walk : Disk} {ev : Event}
    (h : ev ∈ walkEvents B walk) : ∃ kv ∈ walk, ev ∈ stepEvents B kv := by
  unfold walkEvents at h
  exact List.mem_flatMap.mp h

theorem mem_deleteEvent {e : Entry} {ev : Event} (h : ev ∈ deleteEvent e) :
    ev.path = e.path ∧ ev.action = .delete ∧ ev.file = e.kind ∧ e.kind ≠ .unexpectedFile := by
  unfold deleteEvent at h
  cases hk : e.kind with
  | directory => rw [hk] at h; simp at h; subst h; simp [hk]
  | regular => rw [hk] at h; simp at h; subst h; simp [hk]
  | unexpectedFile => rw [hk] at h; simp at h

theorem mem_deletePhase_events {disk : Disk} {st : WatchState} {ev : Event}
    (h : ev ∈ (deletePhase disk st).2) :
    ∃ e ∈ st.source_content, isGone disk st e = true ∧ ev ∈ deleteEvent e := by
  simp only [deletePhase, List.mem_flatMap, List.mem_filter] at h
  rcases h with ⟨e, ⟨he, hgone⟩, hev⟩
  exact ⟨e, he, hgone, hev⟩

theorem deletePhase_events_of {disk : Disk} {st : WatchState} {e : Entry} {ev : Event}
    (he : e ∈ st.source_content) (hgone : isGone disk st e = true) (hev : ev ∈ deleteEvent e) :
    ev ∈ (deletePhase disk st).2 := by
  simp only [deletePhase, List.mem_flatMap, List.mem_filter]
  exact ⟨e, ⟨he, hgone⟩, hev⟩

/-- The effect of one applied event on the replica node stored at the
event's own target key. -/
def keyEffect (disk : Disk) (cur : Option RNode) (ev : Event) : Option RNode :=
  if ev.action = .delete then none
  else
    match lookupKey ev.path disk with
    | some (.file _ c) => some (.file c)
    | _ => cur

/-- The source path currently holds a regular file. -/
def isFileAt (disk : Disk) (p : List String) : Bool :=
  match lookupKey p disk with
  | some (.file _ _) => true
  | _ => false

/-- A regular-file event `report_action` can apply without throwing:
a delete, or a create/modify whose source is a readable regular file. -/
def applicableEv (disk : Disk) (ev : Event) : Prop :=
  ev.file = .regular ∧
    (ev.action = .delete ∨
      ((ev.action = .create ∨ ev.action = .modify) ∧ isFileAt disk ev.path = true))

/-- Every replica object sits directly under the replica root and is a
regular file. -/
def flatFileRep (root : List String) (rep : Replica) : Prop :=
  ∀ kv ∈ rep, (∃ name, kv.1 = root ++ [name]) ∧ ∃ c, kv.2 = .file c

theorem applyAll_append (disk : Disk) (root : List String) (l1 l2 : List Event) (rep : Replica) :
    applyAll disk root (l1 ++ l2) rep =
      match applyAll disk root l1 rep with
      | .ok r1 => applyAll disk root l2 r1
      | .error e => .error e := by
  induction l1 generalizing rep with
  | nil => rfl
  | cons ev rest ih =>
    simp only [List.cons_append, applyAll]
    cases report_action disk root ev rep with
    | ok r2 => exact ih r2
    | error e => rfl

theorem applyAll_spec (disk : Disk) (root : List String) (evs : List Event) (rep : Replica)
    (hev : ∀ ev ∈ evs, applicableEv disk ev) (hrep : flatFileRep root rep) :
    ∃ rep2, applyAll disk root evs rep = .ok rep2 ∧ flatFileRep root rep2 ∧
      ∀ k, lookupKey k rep2 =
        (evs.filter (fun ev => decide (replicaTarget root ev.path = k))).foldl
          (keyEffect disk) (lookupKey k rep) := by
  induction evs generalizing rep with
  | nil =>
    exact ⟨rep, rfl, hrep, fun k => rfl⟩
  | cons ev rest ih =>
    obtain ⟨hfile, hact⟩ := hev ev (List.mem_cons_self _ _)
    rcases hact with hdel | hcm
    · have hc1 : ¬((ev.action = .create ∨ ev.action = .modify) ∧ ev.file = .regular) := by
        rintro ⟨h1 | h1, -⟩ <;> rw [hdel] at h1 <;> exact ActionT.noConfusion h1
      have hra : report_action disk root ev rep =
          .ok (eraseKey (replicaTarget root ev.path) rep) := by
        unfold report_action
        rw [if_neg hc1, if_pos ⟨hdel, hfile⟩]
        unfold removeOne
        cases hlk : lookupKey (replicaTarget root ev.path) rep with
        | none => rfl
        | some v =>
          rcases (hrep _ (lookupKey_mem hlk)).2 with ⟨c, hc⟩
          simp only at hc
          rw [hc]
      have hrep2 : flatFileRep root (eraseKey (replicaTarget root ev.path) rep) :=
        fun kv hkv => hrep kv (mem_eraseKey hkv)
      obtain ⟨rep2, happ, hflat2, hlook⟩ := ih (eraseKey (replicaTarget root ev.path) rep)
        (fun e2 he2 => hev e2 (List.mem_cons_of_mem _ he2)) hrep2
      refine ⟨rep2, ?_, hflat2, ?_⟩
      · simp only [applyAll, hra]
        exact happ
      · intro k
        rw [hlook k]
        by_cases hk : replicaTarget root ev.path = k
        · rw [List.filter_cons, if_pos (decide_eq_true hk), List.foldl_cons]
          rw [← hk, lookup_eraseKey_self]
          rw [show keyEffect disk (lookupKey (replicaTarget root ev.path) rep) ev = none from by
            unfold keyEffect
            rw [if_pos hdel]]
        · rw [List.filter_cons, if_neg (by simpa using hk),
            lookup_eraseKey_ne _ (fun hx => hk hx.symm)]
    · have hfa := hcm.2
      obtain ⟨m, c, hdisk⟩ : ∃ m c, lookupKey ev.path disk = some (.file m c) := by
        unfold isFileAt at hfa
        cases hlk : lookupKey ev.path disk with
        | none => rw [hlk] at hfa; simp at hfa
        | some v =>
          cases v with
          | file m c => exact ⟨m, c, rfl⟩
          | dir m => rw [hlk] at hfa; simp at hfa
          | other m => rw [hlk] at hfa; simp at hfa
      have hra : report_action disk root ev rep =
          .ok (setKey (replicaTarget root ev.path) (.file c) rep) := by
        unfold report_action
        rw [if_pos ⟨hcm.1, hfile⟩]
        unfold copy_file
        rw [hdisk]
      have hrep2 : flatFileRep root (setKey (replicaTarget root ev.path) (.file c) rep) := by
        intro kv hkv
        rcases mem_setKey hkv with h2 | h2
        · subst h2
          exact ⟨⟨get_filename ev.path, rfl⟩, c, rfl⟩
        · exact hrep kv h2
      obtain ⟨rep2, happ, hflat2, hlook⟩ := ih (setKey (replicaTarget root ev.path) (.file c) rep)
        (fun e2 he2 => hev e2 (List.mem_cons_of_mem _ he2)) hrep2
      refine ⟨rep2, ?_, hflat2, ?_⟩
      · simp only [applyAll, hra]
        exact happ
      · intro k
        rw [hlook k]
        by_cases hk : replicaTarget root ev.path = k
        · rw [List.filter_cons, if_pos (decide_eq_true hk), List.foldl_cons]
          rw [← hk, lookup_setKey_self]
          rw [show keyEffect disk (lookupKey (replicaTarget root ev.path) rep) ev
              = some (.file c) from by
            unfold keyEffect
            have hnd : ¬ ev.action = .delete := by
              rcases hcm.1 with h1 | h1 <;> rw [h1] <;> exact fun hx => ActionT.noConfusion hx
            rw [if_neg hnd, hdisk]]
        · rw [List.filter_cons, if_neg (by simpa using hk),
            lookup_setKey_ne _ _ (fun hx => hk hx.symm)]

/-! Lemmas about subtree copies, used for the idempotence claim. -/

theorem isUnder_eq_append {k q : List String} (h : isUnder k q = true) :
    q = k ++ q.drop k.length := by
  induction k generalizing q with
  | nil => simp
  | cons a as ih =>
    cases q with
    | nil => simp [isUnder] at h
    | cons b bs =>
      simp only [isUnder, Bool.and_eq_true, decide_eq_true_eq] at h
      rw [h.1]
      simp only [List.cons_append, List.length_cons, List.drop_succ_cons]
      rw [← ih h.2]

theorem writesFor_keys {tgt src : List String} {l : List (List String × FsNode)}
    {ws : List (List String × RNode)} (h : writesFor tgt src l = some ws) :
    ws.map Prod.fst = l.map (fun kv => tgt ++ kv.1.drop src.length) := by
  induction l generalizing ws with
  | nil =>
    simp only [writesFor] at h
    rw [← Option.some_inj.mp h]
    rfl
  | cons qn rest ih =>
    simp only [writesFor] at h
    cases hr : toRNode qn.2 with
    | none => rw [hr] at h; simp at h
    | some r =>
      rw [hr] at h
      cases hw : writesFor tgt src rest with
      | none => rw [hw] at h; simp at h
      | some ws2 =>
        rw [hw] at h
        rw [← Option.some_inj.mp h]
        simp [ih hw]

theorem subtree_keys_nodup {disk : Disk} {src : List String}
    (hn : (disk.map Prod.fst).Nodup) :
    ((subtreeEntries disk src).map Prod.fst).Nodup :=
  hn.sublist (List.Sublist.map Prod.fst (List.filter_sublist disk))

theorem writesFor_keys_nodup {disk : Disk} {src tgt : List String}
    {ws : List (List String × RNode)} (hn : (disk.map Prod.fst).Nodup)
    (h : writesFor tgt src (subtreeEntries disk src) = some ws) :
    (ws.map Prod.fst).Nodup := by
  rw [writesFor_keys h]
  have hsub : ((subtreeEntries disk src).map Prod.fst).Nodup := subtree_keys_nodup hn
  have hmm : (subtreeEntries disk src).map (fun kv => tgt ++ kv.1.drop src.length)
      = ((subtreeEntries disk src).map Prod.fst).map (fun q => tgt ++ q.drop src.length) := by
    rw [List.map_map]
    rfl
  rw [hmm]
  apply List.Nodup.map_on ?_ hsub
  intro x hx y hy hxy
  have hux : isUnder src x = true := by
    rcases List.mem_map.mp hx with ⟨kv, hkv, hfst⟩
    have := List.of_mem_filter hkv
    rw [hfst] at this
    exact this
  have huy : isUnder src y = true := by
    rcases List.mem_map.mp hy with ⟨kv, hkv, hfst⟩
    have := List.of_mem_filter hkv
    rw [hfst] at this
    exact this
  have hdrop : x.drop src.length = y.drop src.length :=
    List.append_cancel_left hxy
  rw [isUnder_eq_append hux, isUnder_eq_append huy, hdrop]

/-- C8: applying the same create or modify event twice against an
unchanged source leaves the replica exactly as after the first
application (overwrite semantics of `fs::copy_file` and `fs::copy`). -/
theorem c8_reconcile_idempotent (disk : Disk) (root : List String) (ev : Event)
    (rep rep2 : Replica) (hact : ev.action = .create ∨ ev.action = .modify)
    (hnodup : (disk.map Prod.fst).Nodup)
    (h : report_action disk root ev rep = .ok rep2) :
    report_action disk root ev rep2 = .ok rep2 := by
  cases hfl : ev.file with
  | regular =>
    rw [report_action, if_pos ⟨hact, hfl⟩] at h ⊢
    unfold copy_file at h ⊢
    cases hlk : lookupKey ev.path disk with
    | none => rw [hlk] at h; simp at h
    | some v =>
      cases v with
      | dir m => rw [hlk] at h; simp at h
      | other m => rw [hlk] at h; simp at h
      | file m c =>
        rw [hlk] at h
        have h2 : setKey (replicaTarget root ev.path) (RNode.file c) rep = rep2 := by
          have h3 : Except.ok (setKey (replicaTarget root ev.path) (RNode.file c) rep)
              = Except.ok rep2 := h
          simpa only [Except.ok.injEq] using h3
        show Except.ok (setKey (replicaTarget root ev.path) (RNode.file c) rep2) = Except.ok rep2
        rw [← h2, setKey_idem]
  | directory =>
    have hc1 : ¬((ev.action = .create ∨ ev.action = .modify) ∧ ev.file = .regular) := by
      rintro ⟨-, h1⟩
      rw [hfl] at h1
      exact FileT.noConfusion h1
    have hc2 : ¬(ev.action = .delete ∧ ev.file = .regular) := by
      rintro ⟨-, h1⟩
      rw [hfl] at h1
      exact FileT.noConfusion h1
    rw [report_action, if_neg hc1, if_neg hc2, if_pos ⟨hact, hfl⟩] at h ⊢
    unfold copyTree at h ⊢
    cases hlk : lookupKey ev.path disk with
    | none => rw [hlk] at h; simp at h
    | some v =>
      cases v with
      | other m => rw [hlk] at h; simp at h
      | file m c =>
        rw [hlk] at h
        have h2 : setKey (replicaTarget root ev.path) (RNode.file c) rep = rep2 := by
          have h3 : Except.ok (setKey (replicaTarget root ev.path) (RNode.file c) rep)
              = Except.ok rep2 := h
          simpa only [Except.ok.injEq] using h3
        show Except.ok (setKey (replicaTarget root ev.path) (RNode.file c) rep2) = Except.ok rep2
        rw [← h2, setKey_idem]
      | dir m =>
        rw [hlk] at h
        have h2 : (match writesFor (replicaTarget root ev.path) ev.path
              (subtreeEntries disk ev.path) with
          | some ws => Except.ok (writeAll ws rep)
          | none => (Except.error FsErr.copyFail : Except FsErr Replica)) = Except.ok rep2 := h
        cases hw : writesFor (replicaTarget root ev.path) ev.path
            (subtreeEntries disk ev.path) with
        | none => rw [hw] at h2; simp at h2
        | some ws =>
          rw [hw] at h2
          simp only [Except.ok.injEq] at h2
          show Except.ok (writeAll ws rep2) = Except.ok rep2
          rw [← h2, writeAll_idem _ (writesFor_keys_nodup hnodup hw)]
  | unexpectedFile =>
    have hc1 : ¬((ev.action = .create ∨ ev.action = .modify) ∧ ev.file = .regular) := by
      rintro ⟨-, h1⟩
      rw [hfl] at h1
      exact FileT.noConfusion h1
    have hc2 : ¬(ev.action = .delete ∧ ev.file = .regular) := by
      rintro ⟨-, h1⟩
      rw [hfl] at h1
      exact FileT.noConfusion h1
    have hc3 : ¬((ev.action = .create ∨ ev.action = .modify) ∧ ev.file = .directory) := by
      rintro ⟨-, h1⟩
      rw [hfl] at h1
      exact FileT.noConfusion h1
    have hc4 : ¬(ev.action = .delete ∧ ev.file = .directory) := by
      rintro ⟨-, h1⟩
      rw [hfl] at h1
      exact FileT.noConfusion h1
    rw [report_action, if_neg hc1, if_neg hc2, if_neg hc3, if_neg hc4]

/-- C8 witness: a concrete directory-create event applied twice. -/
theorem c8_witness :
    report_action [(["Source", "sub"], FsNode.dir 0), (["Source", "sub", "a"], FsNode.file 0 "x")]
      ["Replica"] ⟨.create, .directory, ["Source", "sub"]⟩
      [(["Replica", "sub"], RNode.dir), (["Replica", "sub", "a"], RNode.file "x")] =
      .ok [(["Replica", "sub"], RNode.dir), (["Replica", "sub", "a"], RNode.file "x")] :=
  c8_reconcile_idempotent
    [(["Source", "sub"], FsNode.dir 0), (["Source", "sub", "a"], FsNode.file 0 "x")]
    ["Replica"] ⟨.create, .directory, ["Source", "sub"]⟩ []
    [(["Replica", "sub"], RNode.dir), (["Replica", "sub", "a"], RNode.file "x")]
    (Or.inl rfl) (by decide) (by rfl)

/-! Scheduler timing. -/

theorem workerExit_aux (flag : Nat → Bool) (I T : Nat) (hI : 0 < I)
    (hmono : ∀ a b, a ≤ b → flag a = true → flag b = true)
    (hT : flag T = true) (hfirst : ∀ s, s < T → flag s = false) :
    ∀ fuel t, T ≤ t + fuel → t < T + I →
      ∃ E, workerExit flag I fuel t = some E ∧ T ≤ E ∧ E < T + I ∧ ∃ j, E = t + I * j := by
  intro fuel
  induction fuel with
  | zero =>
    intro t h1 h2
    have hft : flag t = true := hmono T t (by omega) hT
    refine ⟨t, ?_, by omega, h2, 0, by omega⟩
    simp [workerExit, hft]
  | succ fuel ih =>
    intro t h1 h2
    cases hft : flag t with
    | true =>
      have hTt : T ≤ t := by
        by_contra hlt
        rw [hfirst t (by omega)] at hft
        exact Bool.noConfusion hft
      refine ⟨t, ?_, hTt, h2, 0, by omega⟩
      simp [workerExit, hft]
    | false =>
      have htT : t < T := by
        by_contra hge
        rw [hmono T t (by omega) hT] at hft
        exact Bool.noConfusion hft
      obtain ⟨E, hE, hTE, hEI, j, hj⟩ := ih (t + I) (by omega) (by omega)
      refine ⟨E, ?_, hTE, hEI, j + 1, by
        have hmul : I * (j + 1) = I * j + I := by ring
        omega⟩
      simp only [workerExit, hft]
      exact hE

/-- C6 (amended): the inter-poll sleep is `sleep_for` and is not
interruptible; the stop flag is read only at the top of the loop, so a
stop requested while the worker sleeps is observed only after the
current full-interval sleep completes.  With the flag first set at time
`T > 0` (i.e. after the worker entered its first sleep) the worker
exits at the unique loop-top `E` that is a positive multiple of the
interval in the window `[T, T + I)`: the sleep in progress always runs
to completion and exit is delayed by up to one full interval. -/
theorem c6_sleep_runs_to_completion (flag : Nat → Bool) (I T fuel : Nat)
    (hI : 0 < I) (h0 : 0 < T)
    (hmono : ∀ a b, a ≤ b → flag a = true → flag b = true)
    (hT : flag T = true) (hfirst : ∀ s, s < T → flag s = false)
    (hfuel : T ≤ fuel) :
    ∃ E, workerExit flag I fuel 0 = some E ∧ I ∣ E ∧ I ≤ E ∧ T ≤ E ∧ E < T + I := by
  obtain ⟨E, hE, hTE, hEI, j, hj⟩ :=
    workerExit_aux flag I T hI hmono hT hfirst fuel 0 (by omega) (by omega)
  refine ⟨E, hE, ⟨j, by omega⟩, ?_, hTE, hEI⟩
  cases j with
  | zero => omega
  | succ j2 =>
    have : I * (j2 + 1) = I * j2 + I := by ring
    omega

/-- C6 witness: stop flag first set at time 3, interval 10; the worker
exits exactly at time 10, a full interval after the sleep began. -/
theorem c6_witness :
    ∃ E, workerExit (fun t => decide (3 ≤ t)) 10 5 0 = some E ∧ 10 ∣ E ∧ 10 ≤ E ∧
      3 ≤ E ∧ E < 3 + 10 :=
  c6_sleep_runs_to_completion (fun t => decide (3 ≤ t)) 10 3 5 (by omega) (by omega)
    (fun a b hab ha => decide_eq_true (Nat.le_trans (of_decide_eq_true ha) hab))
    (by decide)
    (fun s hs => decide_eq_false (by omega))
    (by omega)

/-- C6 counterexample: the claim says a stop flag set during the sleep
is observed without the full configured interval elapsing.  With
interval 10 and the flag set at time 1 (during the sleep that started at
time 0), the worker exits at time 10 — the full interval after the sleep
began — so no exit strictly before time 0 + 10 exists. -/
theorem c6_counterexample :
    workerExit (fun t => decide (1 ≤ t)) 10 2 0 = some 10 ∧
      ¬∃ E, workerExit (fun t => decide (1 ≤ t)) 10 2 0 = some E ∧ E < 0 + 10 := by
  constructor
  · rfl
  · rintro ⟨E, hE, hlt⟩
    rw [show workerExit (fun t => decide (1 ≤ t)) 10 2 0 = some 10 from rfl] at hE
    simp only [Option.some_inj] at hE
    omega

/-! The command-line entry point. -/

/-- C7: with three positional arguments (argc = 4) the `Logger` is
constructed from `argv[4]` — the argument vector's null terminator —
before the argument-count check runs, so `main` dereferences a null
`ofstream` pointer and crashes instead of printing the usage message
and exiting with failure status. -/
theorem c7_missing_arguments_crash_before_usage :
    mainModel ["DirSynchronizer", "Source", "Replica", "3"] = .crash ∧
      MainOutcome.crash ≠ MainOutcome.usageFailure :=
  ⟨rfl, fun h => MainOutcome.noConfusion h⟩

/-! The replica path computation. -/

/-- C10: every branch of `report_action` resolves its replica path as
the replica root joined with only the last component of the source
path, so two distinct source paths with the same final component are
reconciled against the same replica location; in particular a delete
for either path performs the identical replica mutation. -/
theorem c10_replica_path_is_basename (disk : Disk) (root p1 p2 : List String) (rep : Replica)
    (h : get_filename p1 = get_filename p2) :
    replicaTarget root p1 = root ++ [get_filename p1] ∧
    replicaTarget root p1 = replicaTarget root p2 ∧
    report_action disk root ⟨.delete, .regular, p1⟩ rep =
      report_action disk root ⟨.delete, .regular, p2⟩ rep := by
  have htgt : replicaTarget root p1 = replicaTarget root p2 := by
    simp [replicaTarget, h]
  refine ⟨rfl, htgt, ?_⟩
  have e1 : report_action disk root ⟨.delete, .regular, p1⟩ rep =
      removeOne (replicaTarget root p1) rep := by
    rw [report_action, if_neg (by simp), if_pos ⟨rfl, rfl⟩]
  have e2 : report_action disk root ⟨.delete, .regular, p2⟩ rep =
      removeOne (replicaTarget root p2) rep := by
    rw [report_action, if_neg (by simp), if_pos ⟨rfl, rfl⟩]
  rw [e1, e2, htgt]

/-- C10 witness: `Source/a/x.txt` and `Source/b/x.txt` resolve to the
same replica location `Replica/x.txt`. -/
theorem c10_witness :
    replicaTarget ["Replica"] ["Source", "a", "x.txt"] = ["Replica"] ++ ["x.txt"] ∧
    replicaTarget ["Replica"] ["Source", "a", "x.txt"]
      = replicaTarget ["Replica"] ["Source", "b", "x.txt"] ∧
    report_action [] ["Replica"] ⟨.delete, .regular, ["Source", "a", "x.txt"]⟩
        [(["Replica", "x.txt"], RNode.file "z")] =
      report_action [] ["Replica"] ⟨.delete, .regular, ["Source", "b", "x.txt"]⟩
        [(["Replica", "x.txt"], RNode.file "z")] :=
  c10_replica_path_is_basename [] ["Replica"] ["Source", "a", "x.txt"] ["Source", "b", "x.txt"]
    [(["Replica", "x.txt"], RNode.file "z")] (by rfl)

/-! Structural lemmas about a full cycle. -/

theorem runCycle_fst_source (walk disk : Disk) (st : WatchState) :
    (runCycle walk disk st).1.source_content =
      (walkPhase walk st).1.source_content.filter
        (fun e => !(isGone disk (walkPhase walk st).1 e)) := rfl

theorem runCycle_fst_replica (walk disk : Disk) (st : WatchState) :
    (runCycle walk disk st).1.replica_content = (walkPhase walk st).1.replica_content := rfl

theorem runCycle_snd (walk disk : Disk) (st : WatchState) :
    (runCycle walk disk st).2 =
      (walkPhase walk st).2 ++ (deletePhase disk (walkPhase walk st).1).2 := rfl

theorem walkPhase_extends (walk : Disk) (st : WatchState) :
    ∃ ext, (walkPhase walk st).1.source_content = st.source_content ++ ext ∧
      (walkPhase walk st).1.replica_content = st.replica_content ++ ext := by
  induction walk generalizing st with
  | nil => exact ⟨[], by simp [walkPhase], by simp [walkPhase]⟩
  | cons kv rest ih =>
    cases hf : findEntry kv.1 st.source_content with
    | none =>
      obtain ⟨ext, h1, h2⟩ := ih ⟨st.source_content ++ [⟨kv.1, kv.2.kind, kv.2.mtime⟩],
        st.replica_content ++ [⟨kv.1, kv.2.kind, kv.2.mtime⟩]⟩
      refine ⟨⟨kv.1, kv.2.kind, kv.2.mtime⟩ :: ext, ?_, ?_⟩
      · simp only [walkPhase, hf, h1]
        simp [List.append_assoc]
      · simp only [walkPhase, hf, h2]
        simp [List.append_assoc]
    | some old =>
      obtain ⟨ext, h1, h2⟩ := ih st
      exact ⟨ext, by simp only [walkPhase, hf]; exact h1,
        by simp only [walkPhase, hf]; exact h2⟩

theorem pathsOfE_append (a b : List Entry) : pathsOfE (a ++ b) = pathsOfE a ++ pathsOfE b := by
  simp [pathsOfE]

theorem mem_pathsOfE_filter {p : List String} {l : List Entry} {f : Entry → Bool}
    (h : p ∈ pathsOfE (l.filter f)) : p ∈ pathsOfE l := by
  simp only [pathsOfE, List.mem_map] at h ⊢
  rcases h with ⟨e, he, hp⟩
  exact ⟨e, List.mem_of_mem_filter he, hp⟩

/-- C9: the snapshot is always covered by the shadow set: the walk phase
inserts the same entry into both sets, the delete phase erases only from
the snapshot and never from the shadow set, so the shadow set only
grows, and if every snapshot path is a shadow path before a cycle the
same holds after it. -/
theorem c9_snapshot_subset_shadow (walk disk : Disk) (st : WatchState)
    (h : ∀ p, p ∈ pathsOfE st.source_content → p ∈ pathsOfE st.replica_content) :
    (∃ ext, (runCycle walk disk st).1.replica_content = st.replica_content ++ ext) ∧
    ∀ p, p ∈ pathsOfE (runCycle walk disk st).1.source_content →
      p ∈ pathsOfE (runCycle walk disk st).1.replica_content := by
  obtain ⟨ext, h1, h2⟩ := walkPhase_extends walk st
  refine ⟨⟨ext, by rw [runCycle_fst_replica, h2]⟩, ?_⟩
  intro p hp
  rw [runCycle_fst_source] at hp
  have hp2 : p ∈ pathsOfE (walkPhase walk st).1.source_content := mem_pathsOfE_filter hp
  rw [h1, pathsOfE_append] at hp2
  rw [runCycle_fst_replica, h2, pathsOfE_append]
  rcases List.mem_append.mp hp2 with h3 | h3
  · exact List.mem_append.mpr (Or.inl (h p h3))
  · exact List.mem_append.mpr (Or.inr h3)

/-- C9 witness: one fresh file walked from an initially consistent
(empty) state. -/
theorem c9_witness :
    (∃ ext, (runCycle [(["Source", "a"], FsNode.file 0 "x")] [(["Source", "a"], FsNode.file 0 "x")]
        ⟨[], []⟩).1.replica_content = [] ++ ext) ∧
    ∀ p, p ∈ pathsOfE (runCycle [(["Source", "a"], FsNode.file 0 "x")]
        [(["Source", "a"], FsNode.file 0 "x")] ⟨[], []⟩).1.source_content →
      p ∈ pathsOfE (runCycle [(["Source", "a"], FsNode.file 0 "x")]
        [(["Source", "a"], FsNode.file 0 "x")] ⟨[], []⟩).1.replica_content :=
  c9_snapshot_subset_shadow [(["Source", "a"], FsNode.file 0 "x")]
    [(["Source", "a"], FsNode.file 0 "x")] ⟨[], []⟩ (fun p hp => by simp [pathsOfE] at hp)

/-- C5 counterexample: a snapshot entry of unexpected type (neither
regular file nor directory) whose object has vanished from disk is
erased from the snapshot, yet the cycle emits no event at all — the
claim that no entry is ever removed without a delete event is false. -/
theorem c5_counterexample :
    (runCycle [] []
      ⟨[⟨["Source", "weird"], .unexpectedFile, 0⟩],
       [⟨["Source", "weird"], .unexpectedFile, 0⟩]⟩).1.source_content = [] ∧
    (runCycle [] []
      ⟨[⟨["Source", "weird"], .unexpectedFile, 0⟩],
       [⟨["Source", "weird"], .unexpectedFile, 0⟩]⟩).2 = [] := ⟨rfl, rfl⟩

/-- C5 (amended): an entry is erased from the snapshot only when it is
gone from disk (and shadowed); when its recorded type is regular-file or
directory a delete event for it is part of the cycle's events, but an
entry of unexpected recorded type is erased without any delete event. -/
theorem c5_removal_implies_delete_event (walk disk : Disk) (st : WatchState) (e : Entry)
    (he : e ∈ st.source_content)
    (hrem : e ∉ (runCycle walk disk st).1.source_content) :
    lookupKey e.path disk = none ∧
      (e.kind = .regular ∨ e.kind = .directory →
        Event.mk .delete e.kind e.path ∈ (runCycle walk disk st).2) := by
  obtain ⟨ext, h1, h2⟩ := walkPhase_extends walk st
  have he1 : e ∈ (walkPhase walk st).1.source_content := by
    rw [h1]
    exact List.mem_append.mpr (Or.inl he)
  have hgone : isGone disk (walkPhase walk st).1 e = true := by
    by_contra hng
    apply hrem
    rw [runCycle_fst_source]
    exact List.mem_filter.mpr ⟨he1, by
      rw [show isGone disk (walkPhase walk st).1 e = false from Bool.eq_false_iff.mpr hng]
      rfl⟩
  have hnone : lookupKey e.path disk = none := by
    unfold isGone at hgone
    simp only [Bool.and_eq_true, Option.isNone_iff_eq_none] at hgone
    exact hgone.2
  refine ⟨hnone, fun hkind => ?_⟩
  have hev : Event.mk .delete e.kind e.path ∈ deleteEvent e := by
    rcases hkind with hk | hk <;> rw [deleteEvent, hk] <;> simp
  rw [runCycle_snd]
  exact List.mem_append.mpr (Or.inr (deletePhase_events_of he1 hgone hev))

/-- C5 witness: a mirrored regular file vanishes; its snapshot entry is
removed and a delete event is emitted first. -/
theorem c5_witness :
    lookupKey ["Source", "gone.txt"] ([] : Disk) = none ∧
      ((⟨["Source", "gone.txt"], .regular, 0⟩ : Entry).kind = .regular ∨
        (⟨["Source", "gone.txt"], .regular, 0⟩ : Entry).kind = .directory →
        Event.mk .delete (⟨["Source", "gone.txt"], .regular, 0⟩ : Entry).kind
            ["Source", "gone.txt"] ∈
          (runCycle [] []
            ⟨[⟨["Source", "gone.txt"], .regular, 0⟩],
             [⟨["Source", "gone.txt"], .regular, 0⟩]⟩).2) :=
  c5_removal_implies_delete_event [] []
    ⟨[⟨["Source", "gone.txt"], .regular, 0⟩], [⟨["Source", "gone.txt"], .regular, 0⟩]⟩
    ⟨["Source", "gone.txt"], .regular, 0⟩ (by decide) (by decide)

theorem mem_unique_of_nodup_keys {α : Type} {l : List (List String × α)}
    (hn : (l.map Prod.fst).Nodup) {k : List String} {v1 v2 : α}
    (h1 : (k, v1) ∈ l) (h2 : (k, v2) ∈ l) : v1 = v2 := by
  have e1 := lookupKey_eq_of_mem_nodup hn h1
  have e2 := lookupKey_eq_of_mem_nodup hn h2
  rw [e1] at e2
  exact Option.some_inj.mp e2

theorem mem_pathsOfE_of {e : Entry} {l : List Entry} (he : e ∈ l) : e.path ∈ pathsOfE l :=
  List.mem_map.mpr ⟨e, he, rfl⟩

theorem walkEvents_at_path {B : List String → Option Entry} {walk : Disk} {ev : Event}
    {p : List String} {node : FsNode} (hn : (walk.map Prod.fst).Nodup)
    (hw : (p, node) ∈ walk) (hev : ev ∈ walkEvents B walk) (hp : ev.path = p) :
    ev ∈ stepEvents B (p, node) := by
  rcases mem_walkEvents hev with ⟨kv, hkv, hstep⟩
  obtain ⟨k1, v1⟩ := kv
  have hpath := (mem_stepEvents hstep).1
  have hk : k1 = p := hpath.symm.trans hp
  subst hk
  have hv : v1 = node := mem_unique_of_nodup_keys hn hkv hw
  exact hv ▸ hstep

theorem deletePhase_event_path_gone {disk : Disk} {st : WatchState} {ev : Event}
    (h : ev ∈ (deletePhase disk st).2) : lookupKey ev.path disk = none := by
  rcases mem_deletePhase_events h with ⟨e, he, hgone, hev⟩
  rcases mem_deleteEvent hev with ⟨hpath, -⟩
  unfold isGone at hgone
  simp only [Bool.and_eq_true, Option.isNone_iff_eq_none] at hgone
  rw [hpath]
  exact hgone.2

/-- C4 counterexample: a walked object that is neither a regular file
nor a directory and is absent from the snapshot is inserted into BOTH
the snapshot and the shadow set (main.cpp:148-149 run before the type
check), while no event is emitted and `run_internal` calls no logging
at all for it — contradicting the claim that such an object is not
inserted and a warning is logged. -/
theorem c4_counterexample :
    (runCycle [(["Source", "sock"], FsNode.other 0)] [(["Source", "sock"], FsNode.other 0)]
        ⟨[], []⟩).1.source_content = [⟨["Source", "sock"], .unexpectedFile, 0⟩] ∧
    (runCycle [(["Source", "sock"], FsNode.other 0)] [(["Source", "sock"], FsNode.other 0)]
        ⟨[], []⟩).1.replica_content = [⟨["Source", "sock"], .unexpectedFile, 0⟩] ∧
    (runCycle [(["Source", "sock"], FsNode.other 0)] [(["Source", "sock"], FsNode.other 0)]
        ⟨[], []⟩).2 = [] :=
  ⟨rfl, rfl, rfl⟩

/-- C4 (amended): a filesystem object encountered in a walk that is
absent from the snapshot and is neither a directory nor a regular file
produces no event, but it IS inserted into both the snapshot and the
shadow set; the watcher loop records no warning for it (`run_internal`
never invokes any logging). -/
theorem c4_unexpected_object_inserted_silently (walk disk : Disk) (st : WatchState)
    (p : List String) (node : FsNode)
    (hn : (walk.map Prod.fst).Nodup)
    (hw : (p, node) ∈ walk)
    (hkind : node.kind = .unexpectedFile)
    (hfresh : findEntry p st.source_content = none)
    (hdisk : lookupKey p disk ≠ none) :
    p ∈ pathsOfE (runCycle walk disk st).1.source_content ∧
    p ∈ pathsOfE (runCycle walk disk st).1.replica_content ∧
    ∀ ev ∈ (runCycle walk disk st).2, ev.path ≠ p := by
  have hspec := walkPhase_spec walk st (fun q => findEntry q st.source_content)
    (fun kv _ => rfl) hn
  have hmem : freshEntry (p, node) ∈ newEntries (fun q => findEntry q st.source_content) walk :=
    newEntries_mem_of hw hfresh
  have hsrc1 : freshEntry (p, node) ∈ (walkPhase walk st).1.source_content := by
    rw [hspec]
    exact List.mem_append.mpr (Or.inr hmem)
  have hrep1 : freshEntry (p, node) ∈ (walkPhase walk st).1.replica_content := by
    rw [hspec]
    exact List.mem_append.mpr (Or.inr hmem)
  have hisnone : (lookupKey p disk).isNone = false := by
    cases hlk : lookupKey p disk
    · exact absurd hlk hdisk
    · rfl
  have hng : isGone disk (walkPhase walk st).1 (freshEntry (p, node)) = false := by
    unfold isGone
    show ((findEntry p (walkPhase walk st).1.replica_content).isSome
      && (lookupKey p disk).isNone) = false
    rw [hisnone, Bool.and_false]
  refine ⟨?_, ?_, ?_⟩
  · rw [runCycle_fst_source]
    exact mem_pathsOfE_of (List.mem_filter.mpr ⟨hsrc1, by rw [hng]; rfl⟩)
  · rw [runCycle_fst_replica]
    exact mem_pathsOfE_of hrep1
  · intro ev hev hp
    rw [runCycle_snd] at hev
    rcases List.mem_append.mp hev with h1 | h1
    · rw [hspec] at h1
      have hstep := walkEvents_at_path hn hw h1 hp
      rcases mem_stepEvents hstep with ⟨-, -, hne, -⟩
      exact hne hkind
    · exact hdisk (by rw [← hp]; exact deletePhase_event_path_gone h1)

/-- C4 witness: a socket-like object appears in the source; after the
cycle its path is in both sets and no event mentions it. -/
theorem c4_witness :
    ["Source", "sock"] ∈ pathsOfE (runCycle [(["Source", "sock"], FsNode.other 0)]
        [(["Source", "sock"], FsNode.other 0)] ⟨[], []⟩).1.source_content ∧
    ["Source", "sock"] ∈ pathsOfE (runCycle [(["Source", "sock"], FsNode.other 0)]
        [(["Source", "sock"], FsNode.other 0)] ⟨[], []⟩).1.replica_content ∧
    ∀ ev ∈ (runCycle [(["Source", "sock"], FsNode.other 0)]
        [(["Source", "sock"], FsNode.other 0)] ⟨[], []⟩).2, ev.path ≠ ["Source", "sock"] :=
  c4_unexpected_object_inserted_silently [(["Source", "sock"], FsNode.other 0)]
    [(["Source", "sock"], FsNode.other 0)] ⟨[], []⟩ ["Source", "sock"] (FsNode.other 0)
    (by decide) (by decide) rfl rfl (by decide)

theorem modify_emitted_and_snapshot_unchanged (walk disk : Disk) (st : WatchState)
    (p : List String) (node : FsNode) (old : Entry)
    (hn : (walk.map Prod.fst).Nodup)
    (hw : (p, node) ∈ walk)
    (hfound : findEntry p st.source_content = some old)
    (hlt : old.mtime < node.mtime)
    (hreg : node.kind = .regular)
    (hdisk : lookupKey p disk ≠ none) :
    Event.mk .modify .regular p ∈ (runCycle walk disk st).2 ∧
    findEntry p (runCycle walk disk st).1.source_content = some old := by
  have hspec := walkPhase_spec walk st (fun q => findEntry q st.source_content)
    (fun kv _ => rfl) hn
  have hisnone : (lookupKey p disk).isNone = false := by
    cases hlk : lookupKey p disk
    · exact absurd hlk hdisk
    · rfl
  constructor
  · rw [runCycle_snd]
    refine List.mem_append.mpr (Or.inl ?_)
    rw [hspec]
    show Event.mk .modify .regular p ∈ walkEvents (fun q => findEntry q st.source_content) walk
    unfold walkEvents
    refine List.mem_flatMap.mpr ⟨(p, node), hw, ?_⟩
    cases node with
    | file m c =>
      simp only [stepEvents, hfound]
      rw [if_pos hlt]
      simp [classifyModified, FsNode.kind]
    | dir m => exact absurd hreg (by simp [FsNode.kind])
    | other m => exact absurd hreg (by simp [FsNode.kind])
  · rw [runCycle_fst_source]
    have hfind1 : findEntry p (walkPhase walk st).1.source_content = some old := by
      rw [hspec]
      show findEntry p (st.source_content
        ++ newEntries (fun q => findEntry q st.source_content) walk) = some old
      rw [findEntry_append_of_isSome _ (by rw [hfound]; rfl)]
      exact hfound
    have hpred : ∀ x : Entry, x.path = p →
        (!(isGone disk (walkPhase walk st).1 x)) = true := by
      intro x hx
      unfold isGone
      rw [hx, hisnone, Bool.and_false]
      rfl
    rw [findEntry_filter p _ _ hpred]
    exact hfind1

/-- C2 counterexample: a file with recorded timestamp 0 and on-disk
timestamp 1 is reported as modified in the next poll AND in the poll
after that with an unchanged disk — the modify branch (main.cpp:161-173)
never updates the stored entry, so the claim's "modify event in exactly
one subsequent poll cycle" is false. -/
theorem c2_counterexample :
    (runCycle [(["Source", "a"], FsNode.file 1 "x")] [(["Source", "a"], FsNode.file 1 "x")]
        ⟨[⟨["Source", "a"], .regular, 0⟩], [⟨["Source", "a"], .regular, 0⟩]⟩).2
      = [⟨.modify, .regular, ["Source", "a"]⟩] ∧
    (runCycle [(["Source", "a"], FsNode.file 1 "x")] [(["Source", "a"], FsNode.file 1 "x")]
        (runCycle [(["Source", "a"], FsNode.file 1 "x")] [(["Source", "a"], FsNode.file 1 "x")]
          ⟨[⟨["Source", "a"], .regular, 0⟩], [⟨["Source", "a"], .regular, 0⟩]⟩).1).2
      = [⟨.modify, .regular, ["Source", "a"]⟩] := ⟨rfl, rfl⟩

/-- C2 (amended): a snapshot entry whose on-disk timestamp is strictly
newer produces a modify event, but its recorded timestamp is NOT
updated: the stored entry survives the cycle unchanged, so an identical
next poll emits the modify event again (and so on, one per cycle, while
the on-disk timestamp stays newer); an entry whose on-disk timestamp is
equal to or older than the recorded one produces no event. -/
theorem c2_modify_without_timestamp_update (walk disk : Disk) (st : WatchState)
    (p : List String) (node : FsNode) (old : Entry)
    (hn : (walk.map Prod.fst).Nodup)
    (hw : (p, node) ∈ walk)
    (hfound : findEntry p st.source_content = some old)
    (hdisk : lookupKey p disk ≠ none) :
    (old.mtime < node.mtime → node.kind = .regular →
      Event.mk .modify .regular p ∈ (runCycle walk disk st).2 ∧
      findEntry p (runCycle walk disk st).1.source_content = some old ∧
      Event.mk .modify .regular p ∈ (runCycle walk disk (runCycle walk disk st).1).2) ∧
    (¬ old.mtime < node.mtime → ∀ ev ∈ (runCycle walk disk st).2, ev.path ≠ p) := by
  constructor
  · intro hlt hreg
    obtain ⟨h1, h2⟩ := modify_emitted_and_snapshot_unchanged walk disk st p node old
      hn hw hfound hlt hreg hdisk
    exact ⟨h1, h2, (modify_emitted_and_snapshot_unchanged walk disk
      (runCycle walk disk st).1 p node old hn hw h2 hlt hreg hdisk).1⟩
  · intro hge ev hev hp
    rw [runCycle_snd] at hev
    rcases List.mem_append.mp hev with h1 | h1
    · have hspec := walkPhase_spec walk st (fun q => findEntry q st.source_content)
        (fun kv _ => rfl) hn
      rw [hspec] at h1
      have hstep := walkEvents_at_path hn hw h1 hp
      simp only [stepEvents, hfound] at hstep
      rw [if_neg hge] at hstep
      simp at hstep
    · exact hdisk (by rw [← hp]; exact deletePhase_event_path_gone h1)

/-- C2 witness: the concrete once-modified file of the counterexample
run through the amended statement. -/
theorem c2_witness :
    ((⟨["Source", "a"], .regular, 0⟩ : Entry).mtime < (FsNode.file 1 "x").mtime →
      (FsNode.file 1 "x").kind = .regular →
      Event.mk .modify .regular ["Source", "a"] ∈
        (runCycle [(["Source", "a"], FsNode.file 1 "x")] [(["Source", "a"], FsNode.file 1 "x")]
          ⟨[⟨["Source", "a"], .regular, 0⟩], [⟨["Source", "a"], .regular, 0⟩]⟩).2 ∧
      findEntry ["Source", "a"]
        (runCycle [(["Source", "a"], FsNode.file 1 "x")] [(["Source", "a"], FsNode.file 1 "x")]
          ⟨[⟨["Source", "a"], .regular, 0⟩], [⟨["Source", "a"], .regular, 0⟩]⟩).1.source_content
        = some ⟨["Source", "a"], .regular, 0⟩ ∧
      Event.mk .modify .regular ["Source", "a"] ∈
        (runCycle [(["Source", "a"], FsNode.file 1 "x")] [(["Source", "a"], FsNode.file 1 "x")]
          (runCycle [(["Source", "a"], FsNode.file 1 "x")] [(["Source", "a"], FsNode.file 1 "x")]
            ⟨[⟨["Source", "a"], .regular, 0⟩], [⟨["Source", "a"], .regular, 0⟩]⟩).1).2) ∧
    (¬ (⟨["Source", "a"], .regular, 0⟩ : Entry).mtime < (FsNode.file 1 "x").mtime →
      ∀ ev ∈ (runCycle [(["Source", "a"], FsNode.file 1 "x")]
          [(["Source", "a"], FsNode.file 1 "x")]
          ⟨[⟨["Source", "a"], .regular, 0⟩], [⟨["Source", "a"], .regular, 0⟩]⟩).2,
        ev.path ≠ ["Source", "a"]) :=
  c2_modify_without_timestamp_update [(["Source", "a"], FsNode.file 1 "x")]
    [(["Source", "a"], FsNode.file 1 "x")]
    ⟨[⟨["Source", "a"], .regular, 0⟩], [⟨["Source", "a"], .regular, 0⟩]⟩
    ["Source", "a"] (FsNode.file 1 "x") ⟨["Source", "a"], .regular, 0⟩
    (by decide) (by decide) rfl (by decide)

/-- C3 counterexample: two create events, the first for a source file
that vanished before the copy.  `fs::copy_file` throws, nothing catches
the exception in `run_internal` (main.cpp:138-199) or around the worker
thread, so no error-severity log line is produced, the second event is
never applied, and there is no resulting replica state at all — the
cycle aborts instead of continuing to the next event. -/
theorem c3_counterexample :
    applyAll [(["Source", "b.txt"], FsNode.file 0 "B")] ["Replica"]
      [⟨.create, .regular, ["Source", "gone.txt"]⟩, ⟨.create, .regular, ["Source", "b.txt"]⟩]
      [] = .error .copyFail ∧
    ∀ rep2, applyAll [(["Source", "b.txt"], FsNode.file 0 "B")] ["Replica"]
      [⟨.create, .regular, ["Source", "gone.txt"]⟩, ⟨.create, .regular, ["Source", "b.txt"]⟩]
      [] ≠ .ok rep2 := by
  refine ⟨rfl, ?_⟩
  intro rep2 h
  exact Except.noConfusion
    (show (Except.error FsErr.copyFail : Except FsErr Replica) = .ok rep2 from h)

/-- C3 (amended): a filesystem failure while applying one event is not
caught anywhere: the exception propagates out of the apply loop, events
after the failing one are never applied, and the worker terminates with
the error; no error-severity logging and no continuation to the next
event or cycle happen. -/
theorem c3_apply_failure_aborts_cycle (disk : Disk) (root : List String)
    (pre post : List Event) (ev : Event) (rep rep1 : Replica) (err : FsErr)
    (h1 : applyAll disk root pre rep = .ok rep1)
    (h2 : report_action disk root ev rep1 = .error err) :
    applyAll disk root (pre ++ ev :: post) rep = .error err := by
  rw [applyAll_append, h1]
  show applyAll disk root (ev :: post) rep1 = .error err
  simp only [applyAll, h2]

/-- C3 witness: the counterexample scenario run through the amended
statement. -/
theorem c3_witness :
    applyAll [(["Source", "b.txt"], FsNode.file 0 "B")] ["Replica"]
      ([] ++ ⟨.create, .regular, ["Source", "gone.txt"]⟩ ::
        [⟨.create, .regular, ["Source", "b.txt"]⟩]) [] = .error .copyFail :=
  c3_apply_failure_aborts_cycle [(["Source", "b.txt"], FsNode.file 0 "B")] ["Replica"]
    [] [⟨.create, .regular, ["Source", "b.txt"]⟩]
    ⟨.create, .regular, ["Source", "gone.txt"]⟩ [] [] .copyFail rfl rfl

/-! Machinery for the end-to-end mirror claim on flat source trees. -/

theorem get_filename_append (root : List String) (name : String) :
    get_filename (root ++ [name]) = name := by
  unfold get_filename
  rw [List.getLast?_concat]
  rfl

theorem append_singleton_inj {root : List String} {a b : String}
    (h : root ++ [a] = root ++ [b]) : a = b := by
  have h2 := List.append_cancel_left h
  simpa using h2

theorem findEntry_cons (p : List String) (e : Entry) (l : List Entry) :
    findEntry p (e :: l) = if e.path = p then some e else findEntry p l := rfl

theorem findEntry_of_mem_nodup {l : List Entry} {e : Entry} {p : List String}
    (hn : (pathsOfE l).Nodup) (he : e ∈ l) (hp : e.path = p) :
    findEntry p l = some e := by
  induction l with
  | nil => simp at he
  | cons e2 rest ih =>
    simp only [pathsOfE, List.map_cons, List.nodup_cons] at hn
    by_cases h2 : e2.path = p
    · rcases List.mem_cons.mp he with h3 | h3
      · rw [findEntry_cons, if_pos h2, h3]
      · exfalso
        apply hn.1
        rw [h2, ← hp]
        exact mem_pathsOfE_of h3
    · rw [findEntry_cons, if_neg h2]
      rcases List.mem_cons.mp he with h3 | h3
      · exact absurd (h3 ▸ hp) h2
      · exact ih hn.2 h3

theorem flatMap_congr_fn {α β : Type} {l : List α} {f g : α → List β}
    (h : ∀ a ∈ l, f a = g a) : l.flatMap f = l.flatMap g := by
  induction l with
  | nil => rfl
  | cons a rest ih =>
    rw [List.flatMap_cons, List.flatMap_cons, h a (List.mem_cons_self _ _),
      ih (fun a2 ha2 => h a2 (List.mem_cons_of_mem _ ha2))]

theorem flatMap_eq_nil_of {α β : Type} {l : List α} {f : α → List β}
    (h : ∀ a ∈ l, f a = []) : l.flatMap f = [] := by
  induction l with
  | nil => rfl
  | cons a rest ih =>
    rw [List.flatMap_cons, h a (List.mem_cons_self _ _),
      ih (fun a2 ha2 => h a2 (List.mem_cons_of_mem _ ha2))]
    rfl

theorem filter_flatMap_eq {α β : Type} (l : List α) (f : α → List β) (q : β → Bool) :
    (l.flatMap f).filter q = l.flatMap (fun a => (f a).filter q) := by
  induction l with
  | nil => rfl
  | cons a rest ih =>
    rw [List.flatMap_cons, List.flatMap_cons, List.filter_append, ih]

theorem flatMap_single_key {α : Type} {l : List (List String × α)} (p : List String)
    (g : List String × α → List Event) (hn : (l.map Prod.fst).Nodup) :
    l.flatMap (fun kv => if kv.1 = p then g kv else []) =
      (match lookupKey p l with
       | some v => g (p, v)
       | none => []) := by
  induction l with
  | nil => rfl
  | cons kv rest ih =>
    simp only [List.map_cons, List.nodup_cons] at hn
    obtain ⟨k1, v1⟩ := kv
    rw [List.flatMap_cons]
    by_cases h2 : k1 = p
    · subst h2
      rw [if_pos rfl]
      have hrest : rest.flatMap (fun kv2 => if kv2.1 = k1 then g kv2 else []) = [] := by
        apply flatMap_eq_nil_of
        intro kv2 hkv2
        rw [if_neg]
        intro hx
        apply hn.1
        rw [← hx]
        exact List.mem_map.mpr ⟨kv2, hkv2, rfl⟩
      rw [hrest, List.append_nil, lookupKey_cons, if_pos rfl]
    · rw [if_neg h2, List.nil_append, lookupKey_cons, if_neg h2]
      exact ih hn.2

theorem stepEvents_filter_eq {B : List String → Option Entry} {kv : List String × FsNode}
    {p : List String} :
    (stepEvents B kv).filter (fun ev => decide (ev.path = p)) =
      if kv.1 = p then stepEvents B kv else [] := by
  by_cases h : kv.1 = p
  · rw [if_pos h]
    apply List.filter_eq_self.mpr
    intro ev hev
    exact decide_eq_true ((mem_stepEvents hev).1.trans h)
  · rw [if_neg h]
    apply List.filter_eq_nil_iff.mpr
    intro ev hev hq
    exact h ((mem_stepEvents hev).1.symm.trans (of_decide_eq_true hq))

theorem walkEvents_filter_eq (B : List String → Option Entry) (walk : Disk)
    (p : List String) (hn : (walk.map Prod.fst).Nodup) :
    (walkEvents B walk).filter (fun ev => decide (ev.path = p)) =
      (match lookupKey p walk with
       | some v => stepEvents B (p, v)
       | none => []) := by
  unfold walkEvents
  rw [filter_flatMap_eq]
  rw [flatMap_congr_fn (fun kv _ => stepEvents_filter_eq)]
  rw [flatMap_single_key p (stepEvents B) hn]
  cases lookupKey p walk <;> rfl

theorem delete_filter_single (l : List Entry) (g : Entry → Bool) (p : List String)
    (hn : (pathsOfE l).Nodup) :
    ((l.filter g).flatMap deleteEvent).filter (fun ev => decide (ev.path = p)) =
      (match findEntry p l with
       | some e => if g e then deleteEvent e else []
       | none => []) := by
  induction l with
  | nil => rfl
  | cons e rest ih =>
    simp only [pathsOfE, List.map_cons, List.nodup_cons] at hn
    have ihr := ih hn.2
    by_cases hp : e.path = p
    · have hfr : findEntry p rest = none := by
        rw [findEntry_eq_none_iff]
        rw [← hp]
        exact hn.1
      rw [hfr] at ihr
      rw [show findEntry p (e :: rest) = some e from by rw [findEntry_cons, if_pos hp]]
      cases hge : g e with
      | true =>
        rw [show (e :: rest).filter g = e :: rest.filter g from by
          rw [List.filter_cons, if_pos (by rw [hge])]]
        rw [List.flatMap_cons, List.filter_append, ihr, List.append_nil]
        rw [show (deleteEvent e).filter (fun ev => decide (ev.path = p)) = deleteEvent e from
          List.filter_eq_self.mpr (fun ev hev =>
            decide_eq_true ((mem_deleteEvent hev).1.trans hp))]
        show deleteEvent e = if g e = true then deleteEvent e else []
        rw [hge]
        simp
      | false =>
        rw [show (e :: rest).filter g = rest.filter g from by
          rw [List.filter_cons, if_neg (by rw [hge]; exact Bool.noConfusion)]]
        rw [ihr]
        show ([] : List Event) = if g e = true then deleteEvent e else []
        rw [hge]
        simp
    · rw [show findEntry p (e :: rest) = findEntry p rest from by
        rw [findEntry_cons, if_neg hp]]
      cases hge : g e with
      | true =>
        rw [show (e :: rest).filter g = e :: rest.filter g from by
          rw [List.filter_cons, if_pos (by rw [hge])]]
        rw [List.flatMap_cons, List.filter_append]
        rw [show (deleteEvent e).filter (fun ev => decide (ev.path = p)) = [] from
          List.filter_eq_nil_iff.mpr (fun ev hev hq =>
            hp ((mem_deleteEvent hev).1.symm.trans (of_decide_eq_true hq)))]
        rw [List.nil_append]
        exact ihr
      | false =>
        rw [show (e :: rest).filter g = rest.filter g from by
          rw [List.filter_cons, if_neg (by rw [hge]; exact Bool.noConfusion)]]
        exact ihr

/-- C1 counterexample: starting from an empty snapshot and an empty
(identical) replica, the source gains `Source/sub/` containing
`sub/a.txt`.  The poll emits a directory create for `sub` (recursively
copied, correctly) and a file create for `sub/a.txt`, which
`report_action` copies to `Replica/a.txt` — the replica root — because
the replica path uses only the basename.  The resulting replica holds a
stray root-level `a.txt` that does not exist at the source root, so the
replica does not match the source tree's directory structure. -/
theorem c1_counterexample :
    applyAll [(["Source", "sub"], FsNode.dir 0), (["Source", "sub", "a.txt"], FsNode.file 0 "hello")]
        ["Replica"]
        (runCycle
          [(["Source", "sub"], FsNode.dir 0), (["Source", "sub", "a.txt"], FsNode.file 0 "hello")]
          [(["Source", "sub"], FsNode.dir 0), (["Source", "sub", "a.txt"], FsNode.file 0 "hello")]
          ⟨[], []⟩).2 []
      = .ok [(["Replica", "sub"], RNode.dir), (["Replica", "sub", "a.txt"], RNode.file "hello"),
             (["Replica", "a.txt"], RNode.file "hello")] ∧
    lookupKey ["Source", "a.txt"]
      [(["Source", "sub"], FsNode.dir 0), (["Source", "sub", "a.txt"], FsNode.file 0 "hello")]
      = none :=
  ⟨rfl, rfl⟩

theorem stepEvents_file_eq (B : List String → Option Entry) (p : List String)
    (m : Nat) (c : String) :
    stepEvents B (p, FsNode.file m c) =
      (match B p with
       | none => [⟨.create, .regular, p⟩]
       | some old => if old.mtime < m then [⟨.modify, .regular, p⟩] else []) := by
  unfold stepEvents
  cases B p with
  | none => simp [classifyNew, FsNode.kind]
  | some old =>
    by_cases hlt : old.mtime < m
    · simp [classifyModified, FsNode.kind, FsNode.mtime, hlt]
    · simp [FsNode.mtime, hlt]

theorem deleteEvent_regular {e : Entry} (h : e.kind = .regular) :
    deleteEvent e = [⟨.delete, .regular, e.path⟩] := by
  unfold deleteEvent
  rw [h]

theorem filter_congr_fn {α : Type} {l : List α} {p q : α → Bool}
    (h : ∀ a ∈ l, p a = q a) : l.filter p = l.filter q := by
  induction l with
  | nil => rfl
  | cons a rest ih =>
    rw [List.filter_cons, List.filter_cons, h a (List.mem_cons_self _ _),
      ih (fun x hx => h x (List.mem_cons_of_mem _ hx))]

/-- C1 (amended): the poll-and-apply round trip converges for source
trees whose objects are regular files lying directly under the source
root (the counterexample shows nested objects break both structure
matching and basename uniqueness).  Hypotheses encode the claim's
setting: the walk enumerates exactly the on-disk tree; the snapshot,
shadow set and replica come from a previous consistent poll (every
snapshot path is shadowed, every replica object corresponds to a
snapshot entry, and — the documented timestamp blind-spot exclusion —
any file whose on-disk timestamp is not newer than the recorded one
already has its current content in the replica).  Conclusion: applying
this poll's events to the replica succeeds and leaves, for every name,
exactly the source file's content at the replica's corresponding path,
and nothing else in the replica. -/
theorem c1_flat_tree_mirror (srcRoot repRoot : List String) (disk : Disk) (st : WatchState)
    (rep : Replica)
    (hdn : (disk.map Prod.fst).Nodup)
    (hdf : ∀ kv ∈ disk, kv.1 = srcRoot ++ [get_filename kv.1] ∧ kv.2.kind = .regular)
    (hsf : ∀ e ∈ st.source_content, e.path = srcRoot ++ [get_filename e.path] ∧ e.kind = .regular)
    (hsn : (pathsOfE st.source_content).Nodup)
    (hsh : ∀ e ∈ st.source_content, (findEntry e.path st.replica_content).isSome = true)
    (hrf : ∀ kv ∈ rep, kv.1 = repRoot ++ [get_filename kv.1] ∧ kv.2 ≠ RNode.dir)
    (hdom : ∀ kv ∈ rep, ∃ e ∈ st.source_content, kv.1 = repRoot ++ [get_filename e.path])
    (hsync : ∀ e ∈ st.source_content, ∀ m c, lookupKey e.path disk = some (FsNode.file m c) →
      m ≤ e.mtime → lookupKey (repRoot ++ [get_filename e.path]) rep = some (RNode.file c)) :
    ∃ rep2, applyAll disk repRoot (runCycle disk disk st).2 rep = .ok rep2 ∧
      (∀ kv ∈ rep2, kv.1 = repRoot ++ [get_filename kv.1] ∧ kv.2 ≠ RNode.dir) ∧
      ∀ name, lookupKey (repRoot ++ [name]) rep2 =
        (match lookupKey (srcRoot ++ [name]) disk with
         | some (FsNode.file _ c) => some (RNode.file c)
         | _ => none) := by
  have hspec := walkPhase_spec disk st (fun q => findEntry q st.source_content)
    (fun kv _ => rfl) hdn
  have hst1s : (walkPhase disk st).1.source_content
      = st.source_content ++ newEntries (fun q => findEntry q st.source_content) disk := by
    rw [hspec]
  have hst1r : (walkPhase disk st).1.replica_content
      = st.replica_content ++ newEntries (fun q => findEntry q st.source_content) disk := by
    rw [hspec]
  have hevs : (walkPhase disk st).2
      = walkEvents (fun q => findEntry q st.source_content) disk := by
    rw [hspec]
  have hnewflat : ∀ e ∈ newEntries (fun q => findEntry q st.source_content) disk,
      e.path = srcRoot ++ [get_filename e.path] ∧ e.kind = .regular := by
    intro e he
    rcases mem_newEntries he with ⟨kv, hkv, he2, hBnone⟩
    rcases hdf kv hkv with ⟨hk1, hk2⟩
    rw [he2]
    exact ⟨hk1, hk2⟩
  have hnewdisk : ∀ e ∈ newEntries (fun q => findEntry q st.source_content) disk,
      e.path ∈ disk.map Prod.fst := by
    intro e he
    rcases mem_newEntries he with ⟨kv, hkv, he2, -⟩
    rw [he2]
    exact List.mem_map.mpr ⟨kv, hkv, rfl⟩
  have hnewfresh : ∀ e ∈ newEntries (fun q => findEntry q st.source_content) disk,
      findEntry e.path st.source_content = none := by
    intro e he
    rcases mem_newEntries he with ⟨kv, hkv, he2, hBnone⟩
    rw [he2]
    exact hBnone
  have hst1flat : ∀ e ∈ (walkPhase disk st).1.source_content,
      e.path = srcRoot ++ [get_filename e.path] ∧ e.kind = .regular := by
    intro e he
    rw [hst1s] at he
    rcases List.mem_append.mp he with h | h
    · exact hsf e h
    · exact hnewflat e h
  have hst1nodup : (pathsOfE (walkPhase disk st).1.source_content).Nodup := by
    rw [hst1s, pathsOfE_append, List.nodup_append]
    refine ⟨hsn, hdn.sublist (paths_newEntries_sublist _ _), ?_⟩
    intro q hq hq2
    rcases List.mem_map.mp hq2 with ⟨e, he, hpath⟩
    have := hnewfresh e he
    rw [hpath, findEntry_eq_none_iff] at this
    exact this hq
  have happ : ∀ ev ∈ (runCycle disk disk st).2, applicableEv disk ev := by
    intro ev hev
    rw [runCycle_snd] at hev
    rcases List.mem_append.mp hev with h | h
    · rw [hevs] at h
      rcases mem_walkEvents h with ⟨kv, hkv, hstep⟩
      rcases mem_stepEvents hstep with ⟨hpath, hfile, -, hact⟩
      rcases hdf kv hkv with ⟨-, hkind⟩
      refine ⟨by rw [hfile, hkind], Or.inr ⟨hact, ?_⟩⟩
      have hlk : lookupKey kv.1 disk = some kv.2 :=
        lookupKey_eq_of_mem_nodup hdn (by cases kv; exact hkv)
      unfold isFileAt
      rw [hpath, hlk]
      cases hkv2 : kv.2 with
      | file m c => rfl
      | dir m =>
        rw [hkv2] at hkind
        simp [FsNode.kind] at hkind
      | other m =>
        rw [hkv2] at hkind
        simp [FsNode.kind] at hkind
    · rcases mem_deletePhase_events h with ⟨e, he, hgone, hdev⟩
      rcases mem_deleteEvent hdev with ⟨-, hact, hfile, -⟩
      have hkind := (hst1flat e he).2
      exact ⟨by rw [hfile, hkind], Or.inl hact⟩
  have hff : flatFileRep repRoot rep := by
    intro kv hkv
    rcases hrf kv hkv with ⟨h1, h2⟩
    refine ⟨⟨get_filename kv.1, h1⟩, ?_⟩
    cases hv : kv.2 with
    | dir => exact absurd hv h2
    | file c => exact ⟨c, rfl⟩
  obtain ⟨rep2, happly, hflat2, hlook⟩ :=
    applyAll_spec disk repRoot (runCycle disk disk st).2 rep happ hff
  refine ⟨rep2, happly, ?_, ?_⟩
  · intro kv hkv
    rcases hflat2 kv hkv with ⟨⟨name2, hk⟩, c, hc⟩
    constructor
    · rw [hk, get_filename_append]
    · rw [hc]
      exact fun hx => RNode.noConfusion hx
  · intro name
    rw [hlook (repRoot ++ [name])]
    have hpaths : ∀ ev ∈ (runCycle disk disk st).2, ∃ nm, ev.path = srcRoot ++ [nm] := by
      intro ev hev
      rw [runCycle_snd] at hev
      rcases List.mem_append.mp hev with h | h
      · rw [hevs] at h
        rcases mem_walkEvents h with ⟨kv, hkv, hstep⟩
        exact ⟨get_filename kv.1, by rw [(mem_stepEvents hstep).1]; exact (hdf kv hkv).1⟩
      · rcases mem_deletePhase_events h with ⟨e, he, -, hdev⟩
        exact ⟨get_filename e.path, by rw [(mem_deleteEvent hdev).1]; exact (hst1flat e he).1⟩
    have hfiltereq : (runCycle disk disk st).2.filter
        (fun ev => decide (replicaTarget repRoot ev.path = repRoot ++ [name]))
        = (runCycle disk disk st).2.filter
          (fun ev => decide (ev.path = srcRoot ++ [name])) := by
      apply filter_congr_fn
      intro ev hev
      rcases hpaths ev hev with ⟨nm, hnm⟩
      rw [hnm]
      rw [show replicaTarget repRoot (srcRoot ++ [nm]) = repRoot ++ [nm] from by
        unfold replicaTarget
        rw [get_filename_append]]
      by_cases hx : nm = name
      · subst hx
        rw [decide_eq_true rfl, decide_eq_true rfl]
      · rw [decide_eq_false (fun hc => hx (append_singleton_inj hc)),
          decide_eq_false (fun hc => hx (append_singleton_inj hc))]
    rw [hfiltereq]
    rw [runCycle_snd, List.filter_append, hevs]
    rw [show (deletePhase disk (walkPhase disk st).1).2
        = ((walkPhase disk st).1.source_content.filter
            (fun e => isGone disk (walkPhase disk st).1 e)).flatMap deleteEvent from rfl]
    rw [walkEvents_filter_eq _ _ _ hdn,
      delete_filter_single _ _ _ hst1nodup]
    cases hlkd : lookupKey (srcRoot ++ [name]) disk with
    | some nd =>
      obtain ⟨m, c, hnd⟩ : ∃ m c, nd = FsNode.file m c := by
        have hmem := lookupKey_mem hlkd
        have hkind := (hdf _ hmem).2
        cases nd with
        | file m c => exact ⟨m, c, rfl⟩
        | dir m => simp [FsNode.kind] at hkind
        | other m => simp [FsNode.kind] at hkind
      subst hnd
      have hdelnil : (match findEntry (srcRoot ++ [name]) (walkPhase disk st).1.source_content with
          | some e => if (fun e => isGone disk (walkPhase disk st).1 e) e = true
              then deleteEvent e else []
          | none => []) = [] := by
        cases hfe : findEntry (srcRoot ++ [name]) (walkPhase disk st).1.source_content with
        | none => rfl
        | some e =>
          have hpe : e.path = srcRoot ++ [name] := (findEntry_mem hfe).2
          have hng : isGone disk (walkPhase disk st).1 e = false := by
            unfold isGone
            rw [hpe, hlkd]
            simp
          show (if isGone disk (walkPhase disk st).1 e = true then deleteEvent e else []) = []
          rw [hng]
          simp
      rw [hdelnil, List.append_nil]
      show List.foldl (keyEffect disk) (lookupKey (repRoot ++ [name]) rep)
        (stepEvents (fun q => findEntry q st.source_content)
          (srcRoot ++ [name], FsNode.file m c)) = _
      rw [stepEvents_file_eq]
      show List.foldl (keyEffect disk) (lookupKey (repRoot ++ [name]) rep)
        (match findEntry (srcRoot ++ [name]) st.source_content with
         | none => [⟨.create, .regular, srcRoot ++ [name]⟩]
         | some old => if old.mtime < m then [⟨.modify, .regular, srcRoot ++ [name]⟩] else []) = _
      cases hfs : findEntry (srcRoot ++ [name]) st.source_content with
      | none =>
        show List.foldl (keyEffect disk) (lookupKey (repRoot ++ [name]) rep)
          [⟨.create, .regular, srcRoot ++ [name]⟩] = _
        rw [List.foldl_cons, List.foldl_nil]
        show keyEffect disk (lookupKey (repRoot ++ [name]) rep) ⟨.create, .regular, srcRoot ++ [name]⟩
          = some (RNode.file c)
        unfold keyEffect
        rw [if_neg (by simp), hlkd]
      | some old =>
        have hold := findEntry_mem hfs
        by_cases hlt : old.mtime < m
        · show List.foldl (keyEffect disk) (lookupKey (repRoot ++ [name]) rep)
            (if old.mtime < m then [⟨.modify, .regular, srcRoot ++ [name]⟩] else []) = _
          rw [if_pos hlt, List.foldl_cons, List.foldl_nil]
          show keyEffect disk (lookupKey (repRoot ++ [name]) rep)
            ⟨.modify, .regular, srcRoot ++ [name]⟩ = some (RNode.file c)
          unfold keyEffect
          rw [if_neg (by simp), hlkd]
        · show List.foldl (keyEffect disk) (lookupKey (repRoot ++ [name]) rep)
            (if old.mtime < m then [⟨.modify, .regular, srcRoot ++ [name]⟩] else []) = _
          rw [if_neg hlt, List.foldl_nil]
          have hs := hsync old hold.1 m c (by rw [hold.2]; exact hlkd) (by omega)
          rw [hold.2, get_filename_append] at hs
          show lookupKey (repRoot ++ [name]) rep = some (RNode.file c)
          exact hs
    | none =>
      cases hfe : findEntry (srcRoot ++ [name]) (walkPhase disk st).1.source_content with
      | some e =>
        have hpe : e.path = srcRoot ++ [name] := (findEntry_mem hfe).2
        have hest : e ∈ st.source_content := by
          have hmem := (findEntry_mem hfe).1
          rw [hst1s] at hmem
          rcases List.mem_append.mp hmem with h | h
          · exact h
          · exfalso
            have := hnewdisk e h
            rw [hpe] at this
            rw [lookupKey_eq_none_iff] at hlkd
            exact hlkd this
        have hgone : isGone disk (walkPhase disk st).1 e = true := by
          unfold isGone
          rw [hpe, hlkd]
          have hshad := hsh e hest
          have : (findEntry (srcRoot ++ [name]) (walkPhase disk st).1.replica_content).isSome
              = true := by
            rw [hst1r, findEntry_append_of_isSome _ (by rw [← hpe]; exact hshad), ← hpe]
            exact hshad
          rw [this]
          rfl
        have hkind := (hsf e hest).2
        show List.foldl (keyEffect disk) (lookupKey (repRoot ++ [name]) rep)
          ([] ++ (if isGone disk (walkPhase disk st).1 e = true then deleteEvent e else []))
          = none
        rw [hgone, if_pos rfl, deleteEvent_regular hkind, hpe, List.nil_append,
          List.foldl_cons, List.foldl_nil]
        unfold keyEffect
        rw [if_pos rfl]
      | none =>
        have hfs0 : findEntry (srcRoot ++ [name]) st.source_content = none := by
          cases hfs : findEntry (srcRoot ++ [name]) st.source_content with
          | none => rfl
          | some old =>
            exfalso
            have hiss : (findEntry (srcRoot ++ [name]) st.source_content).isSome = true := by
              rw [hfs]
              rfl
            rw [← findEntry_append_of_isSome
              (newEntries (fun q => findEntry q st.source_content) disk) hiss] at hfs
            rw [← hst1s, hfe] at hfs
            exact Option.noConfusion hfs
        show List.foldl (keyEffect disk) (lookupKey (repRoot ++ [name]) rep) ([] ++ []) = none
        rw [List.nil_append, List.foldl_nil]
        cases hr : lookupKey (repRoot ++ [name]) rep with
        | none => rfl
        | some v =>
          exfalso
          have hmem := lookupKey_mem hr
          rcases hdom _ hmem with ⟨e, he, hkey⟩
          have hnm : name = get_filename e.path := append_singleton_inj hkey
          have hpe : e.path = srcRoot ++ [name] := by
            rw [hnm]
            exact (hsf e he).1
          have := findEntry_isSome_of_mem he hpe
          rw [hfs0] at this
          exact Bool.noConfusion this

/-- C1 witness: cold start (empty snapshot, empty replica) against a
source holding one regular file directly under the root. -/
theorem c1_witness :
    ∃ rep2, applyAll [(["Source", "a.txt"], FsNode.file 0 "x")] ["Replica"]
        (runCycle [(["Source", "a.txt"], FsNode.file 0 "x")]
          [(["Source", "a.txt"], FsNode.file 0 "x")] ⟨[], []⟩).2 [] = .ok rep2 ∧
      (∀ kv ∈ rep2, kv.1 = ["Replica"] ++ [get_filename kv.1] ∧ kv.2 ≠ RNode.dir) ∧
      ∀ name, lookupKey (["Replica"] ++ [name]) rep2 =
        (match lookupKey (["Source"] ++ [name]) [(["Source", "a.txt"], FsNode.file 0 "x")] with
         | some (FsNode.file _ c) => some (RNode.file c)
         | _ => none) :=
  c1_flat_tree_mirror ["Source"] ["Replica"] [(["Source", "a.txt"], FsNode.file 0 "x")]
    ⟨[], []⟩ []
    (by decide)
    (by decide)
    (fun e he => absurd he (List.not_mem_nil _))
    (by decide)
    (fun e he => absurd he (List.not_mem_nil _))
    (fun kv hkv => absurd hkv (List.not_mem_nil _))
    (fun kv hkv => absurd hkv (List.not_mem_nil _))
    (fun e he => absurd he (List.not_mem_nil _))
